import Mathlib

/-!
# Siddhant043/ecommerce-crawler: a shallow embedding and its properties

The development embeds `crawler/crawler.go` and `main.go`.

* A Go `string` is a sequence of bytes; it is embedded as a `List Char`, one
  `Char` per byte (ASCII text is its own embedding).
* A Go `map[string]V` is embedded as a function `GoString → Option V`
  (`none` = key absent); reading a map applies the zero value to `none`.
* The network (`http.Client.Do`) is an oracle handed to the functions that
  use it; the observable effects (requests, sleeps, spawned goroutines) are
  returned as explicit values.  `log.Printf` output is not part of the
  embedding.
* `go c.Crawl(...)` is embedded by returning the spawned task; schedulers
  over pools of pending tasks model the interleaving of goroutines, with one
  `Crawl` invocation as one step.  `Visited` is only touched under
  `VisitedLock`, and nothing an invocation does depends on the product index.
  The product index itself is written without a lock (line 128): that line is
  embedded as a read step and a write step, and `race` interleaves goroutines
  at that granularity.
* The packages of the Go distribution that the code calls are embedded by
  what they compute: `strings.Contains`, the fragment of `regexp` that the
  patterns use, and `net/url`.  `resolveURL`, `processLinks` and `Crawl` take
  the imported packages `net/url` and `golang.org/x/net/html` as a parameter
  (`Imports`), so that what is proved about them without naming `goImports`
  holds for every implementation of these packages.

The file has two parts: the definitions, then the lemmas and the properties
`C1` to `C10`.
-/

namespace EcommerceCrawler

/-! ## Strings -/

/-- A Go string: a sequence of bytes, one `Char` per byte. -/
abbrev GoString := List Char

/-- Go `strings.Contains(s, substr)`: `substr` occurs in `s` at some offset. -/
def Contains : GoString → GoString → Bool
  | [], substr => substr.isPrefixOf []
  | c :: s, substr => substr.isPrefixOf (c :: s) || Contains s substr

/-! ## Regular expressions (the fragment used by `NewCrawler`)

The eleven patterns of `NewCrawler` are built from literal characters, the
Perl class `\d` (ASCII digits in Go's RE2 syntax) and the postfix operator
`+`.  `regexp.MustCompile` and `Regexp.MatchString` are embedded for that
fragment: a compiled pattern is a sequence of pieces, each a character class
taken once or one-or-more times, and `MatchString` searches for a match
starting at any offset (it is not anchored). -/

/-- A character class of the fragment. -/
inductive CharClass
  | lit (c : Char)
  | digit
  deriving DecidableEq, Repr

/-- One piece of a compiled pattern: a class, taken once (`plus = false`) or
one or more times (`plus = true`). -/
structure Piece where
  cls : CharClass
  plus : Bool
  deriving DecidableEq, Repr

/-- A compiled pattern of the fragment. -/
abbrev Regexp := List Piece

/-- Go `regexp.MustCompile`, on the fragment: literal characters, `\d`, and a
postfix `+`. -/
def MustCompile : GoString → Regexp
  | [] => []
  | '\\' :: 'd' :: '+' :: rest => ⟨.digit, true⟩ :: MustCompile rest
  | '\\' :: 'd' :: rest => ⟨.digit, false⟩ :: MustCompile rest
  | c :: '+' :: rest => ⟨.lit c, true⟩ :: MustCompile rest
  | c :: rest => ⟨.lit c, false⟩ :: MustCompile rest

/-- Membership of a byte in a class; `\d` is `[0-9]`. -/
def CharClass.test : CharClass → Char → Bool
  | .lit c, x => x == c
  | .digit, x => decide ('0' ≤ x) && decide (x ≤ '9')

/-- The pattern matches a prefix of the input. -/
def matchHere : Regexp → GoString → Bool
  | [], _ => true
  | _ :: _, [] => false
  | p :: ps, c :: cs =>
    p.cls.test c && (matchHere ps cs || (p.plus && matchHere (p :: ps) cs))

/-- Go `(*Regexp).MatchString`: the pattern matches at some offset of `s`. -/
def MatchString (re : Regexp) : GoString → Bool
  | [] => matchHere re []
  | c :: s => matchHere re (c :: s) || MatchString re s

/-! ## The crawler -/

/-- The `Crawler` struct.  `VisitedLock` is embedded by the atomicity of the
test-and-set in `Crawl`; `Client` is the network oracle. -/
structure Crawler where
  Visited : GoString → Option Bool
  ProductURLs : GoString → Option (List GoString)
  Patterns : List Regexp

/-- The pattern list of `NewCrawler`, in source order. -/
def patterns : List Regexp :=
  [ MustCompile "/product/".toList,
    MustCompile "/products/".toList,
    MustCompile "/productpage".toList,
    MustCompile "/item/".toList,
    MustCompile "/p/".toList,
    MustCompile "/pl/".toList,
    MustCompile "/buy".toList,
    MustCompile "/dp/".toList,
    MustCompile "-p-\\d+".toList,
    MustCompile "-p\\d+".toList,
    MustCompile "/catalog/product/view/".toList ]

/-- `NewCrawler`: empty maps and the fixed pattern list. -/
def NewCrawler : Crawler :=
  { Visited := fun _ => none
    ProductURLs := fun _ => none
    Patterns := patterns }

/-- The loop of `isProductURL` over the patterns, first match returns. -/
def isProductURL.loop (link : GoString) : List Regexp → Bool
  | [] => false
  | pattern :: rest => if MatchString pattern link then true else isProductURL.loop link rest

/-- `(*Crawler).isProductURL`. -/
def isProductURL (c : Crawler) (link : GoString) : Bool :=
  isProductURL.loop link c.Patterns

/-- The compiled form of a literal pattern (used to state what `MustCompile`
returns on the patterns of `NewCrawler`). -/
def lits (l : GoString) : Regexp := l.map fun c => ⟨.lit c, false⟩

/-! ## Maps -/

/-- Go `m[key] = v` on a map. -/
def mapSet {V : Type} (m : GoString → Option V) (key : GoString) (v : V) :
    GoString → Option V :=
  fun k => if k = key then some v else m k

/-- Go `c.Visited[key]`: the stored value, `false` for an absent key. -/
def visited (c : Crawler) (key : GoString) : Bool := (c.Visited key).getD false

/-- Go `c.ProductURLs[key]`: the stored slice, `nil` for an absent key. -/
def productURLs (c : Crawler) (key : GoString) : List GoString := (c.ProductURLs key).getD []

/-- The first step of line 128: the read of `c.ProductURLs[domain]`. -/
def indexRead (c : Crawler) (domain : GoString) : List GoString := productURLs c domain

/-- The second step of line 128: `c.ProductURLs[domain] = append(s, fullURL)`,
with `s` the slice that was read before.  The source holds no lock between
the read and the write. -/
def indexWrite (c : Crawler) (domain : GoString) (s : List GoString) (fullURL : GoString) :
    Crawler :=
  { c with ProductURLs := mapSet c.ProductURLs domain (s ++ [fullURL]) }

/-- Line 128, `c.ProductURLs[domain] = append(c.ProductURLs[domain], fullURL)`,
when the goroutine is not interrupted between its read and its write: the two
steps one after the other.  The executions in which another goroutine writes
in between are those of `race` below. -/
def appendProduct (c : Crawler) (domain fullURL : GoString) : Crawler :=
  indexWrite c domain (indexRead c domain) fullURL

/-- Go `a + b` on `int` (64 bits, two's complement): the sum wraps around. -/
def intAdd (a b : Int) : Int := (a + b + 2 ^ 63) % 2 ^ 64 - 2 ^ 63

/-! ## Fetching -/

/-- Go `http.StatusOK`. -/
def StatusOK : Int := 200

/-- An `*http.Response`, as far as the crawler reads it. -/
structure Response where
  StatusCode : Int
  Body : GoString
  deriving DecidableEq, Repr

/-- The pair `(*http.Response, error)` returned by `fetchURL`: either an error
(`err != nil`, from `http.NewRequest` or from `Client.Do`) or a response. -/
inductive FetchResult
  | err (msg : GoString)
  | resp (r : Response)
  deriving DecidableEq, Repr

/-- The network seen by one invocation: the outcome of its `i`-th request
(counted from 0) to a URL. -/
abbrev Network := GoString → Nat → FetchResult

/-- Observable effects of an invocation, in program order. -/
inductive Effect
  | request (urlStr : GoString)
  | sleep (seconds : Nat)
  deriving DecidableEq, Repr

/-- `(*Crawler).fetchURL`, as the `i`-th request of the invocation: one GET. -/
def fetchURL (net : Network) (urlStr : GoString) (i : Nat) : FetchResult := net urlStr i

/-- Go `fmt` verb `%d` on an `int`. -/
def fmtInt (n : Int) : GoString := (toString n).toList

/-- The error of `fetchWithRetry`,
`fmt.Errorf("Failed to fetch URL %s after %d retries", urlStr, retries)`. -/
def retryError (urlStr : GoString) (retries : Int) : GoString :=
  "Failed to fetch URL ".toList ++ urlStr ++ " after ".toList ++ fmtInt retries ++
    " retries".toList

/-- The loop `for i := 0; i < retries; i++` of `fetchWithRetry`, entered at
index `i` with `n` iterations left. -/
def fetchWithRetry.loop (net : Network) (urlStr : GoString) (retries : Int) :
    Nat → Nat → List Effect × Except GoString Response
  | 0, _ => ([], .error (retryError urlStr retries))
  | n + 1, i =>
    match fetchURL net urlStr i with
    | .resp r =>
      if r.StatusCode = StatusOK then ([.request urlStr], .ok r)
      else
        let rest := fetchWithRetry.loop net urlStr retries n (i + 1)
        (.request urlStr :: .sleep 2 :: rest.1, rest.2)
    | .err _ =>
      let rest := fetchWithRetry.loop net urlStr retries n (i + 1)
      (.request urlStr :: .sleep 2 :: rest.1, rest.2)

/-- `(*Crawler).fetchWithRetry`: the effects, and `(resp, nil)` as `.ok resp`
or `(nil, err)` as `.error message`.  The loop body runs for
`i = 0, ..., retries - 1`, that is `retries.toNat` times. -/
def fetchWithRetry (net : Network) (urlStr : GoString) (retries : Int) :
    List Effect × Except GoString Response :=
  fetchWithRetry.loop net urlStr retries retries.toNat 0

/-! ## Parsed pages and the imported packages -/

/-- Go `html.NodeType`. -/
inductive NodeType
  | ErrorNode | TextNode | DocumentNode | ElementNode | CommentNode | DoctypeNode | RawNode
  deriving DecidableEq, Repr

/-- Go `html.Attribute`. -/
structure Attribute where
  Namespace : GoString
  Key : GoString
  Val : GoString
  deriving DecidableEq, Repr

/-- Go `html.Node`: the `FirstChild`/`NextSibling` chain is the list of
children. -/
inductive Node
  | mk (type : NodeType) (Data : GoString) (Attr : List Attribute) (children : List Node)

/-- The imported packages whose code is not part of the repository: `net/url`
(`url.Parse`, `(*URL).ResolveReference`, `(*URL).String`) and
`golang.org/x/net/html` (`html.Parse`).  A `none` result is `err != nil`. -/
structure Imports where
  URL : Type
  urlParse : GoString → Option URL
  ResolveReference : URL → URL → URL
  urlString : URL → GoString
  htmlParse : GoString → Option Node

/-- `(*Crawler).resolveURL`. -/
def resolveURL (lib : Imports) (base href : GoString) : GoString :=
  match lib.urlParse base with
  | none => []
  | some baseURL =>
    match lib.urlParse href with
    | none => []
    | some relativeURL => lib.urlString (lib.ResolveReference baseURL relativeURL)

/-- The arguments of one `Crawl` invocation. -/
structure Task where
  urlStr : GoString
  domain : GoString
  depth : Int
  maxDepth : Int
  deriving DecidableEq, Repr

/-- The state threaded through `processLinks`: the crawler and the goroutines
spawned so far (`go c.Crawl(...)`), oldest first. -/
abbrev LinkState := Crawler × List Task

/-- Lines 125-131 of `processLinks`: what is done with one `href` value, by a
goroutine that no other goroutine interrupts in line 128.  `depth+1` is Go's
addition on `int`, `intAdd depth 1`; the embedding writes `depth + 1`, which
is the same number for every `int` below `math.MaxInt64`
(`intAdd_one_eq`).  The properties that speak of the depth of a spawned task
are stated for such a depth, or for runs started at depth 0. -/
def processLinks.link (lib : Imports) (base domain : GoString) (depth maxDepth : Int)
    (link : GoString) (st : LinkState) : LinkState :=
  let fullURL := resolveURL lib base link
  if isProductURL st.1 fullURL then
    (appendProduct st.1 domain fullURL, st.2)
  else if Contains fullURL domain then
    (st.1, st.2 ++ [⟨fullURL, domain, depth + 1, maxDepth⟩])
  else st

/-- The loop `for _, attr := range n.Attr` of `processLinks`. -/
def processLinks.attrs (lib : Imports) (base domain : GoString) (depth maxDepth : Int) :
    List Attribute → LinkState → LinkState
  | [], st => st
  | attr :: rest, st =>
    processLinks.attrs lib base domain depth maxDepth rest
      (if attr.Key = "href".toList then
        processLinks.link lib base domain depth maxDepth attr.Val st
      else st)

mutual
/-- The closure `f` of `processLinks`: the node itself, then its children. -/
def processLinks.f (lib : Imports) (base domain : GoString) (depth maxDepth : Int) :
    Node → LinkState → LinkState
  | .mk type data attr children, st =>
    processLinks.children lib base domain depth maxDepth children
      (if type = NodeType.ElementNode ∧ data = "a".toList then
        processLinks.attrs lib base domain depth maxDepth attr st
      else st)
/-- The loop `for child := n.FirstChild; child != nil; child = child.NextSibling`. -/
def processLinks.children (lib : Imports) (base domain : GoString) (depth maxDepth : Int) :
    List Node → LinkState → LinkState
  | [], st => st
  | child :: rest, st =>
    processLinks.children lib base domain depth maxDepth rest
      (processLinks.f lib base domain depth maxDepth child st)
end

/-- `(*Crawler).processLinks`: the crawler afterwards and the spawned tasks. -/
def processLinks (lib : Imports) (c : Crawler) (node : Node) (base domain : GoString)
    (depth maxDepth : Int) : LinkState :=
  processLinks.f lib base domain depth maxDepth node (c, [])

/-- The result of one `Crawl` invocation: the crawler afterwards, the effects
of the invocation, the goroutines it spawned. -/
structure CrawlResult where
  crawler : Crawler
  effects : List Effect
  spawned : List Task

/-- `(*Crawler).Crawl`.  The section between `VisitedLock.Lock()` and
`VisitedLock.Unlock()` is the test of `Visited[urlStr]` and its update.
`depth` is a Go `int`; `depth + 1` is only computed for a task that passed
`depth <= maxDepth`, and a task at depth `k` of a run has `k` ancestors that
were executed before it (`run_depth_le_executed`), so the addition is embedded
without wrap-around. -/
def Crawl (lib : Imports) (net : Network) (c : Crawler) (t : Task) : CrawlResult :=
  if t.depth > t.maxDepth then ⟨c, [], []⟩
  else if visited c t.urlStr then ⟨c, [], []⟩
  else
    let c1 : Crawler := { c with Visited := mapSet c.Visited t.urlStr true }
    let fetched := fetchWithRetry net t.urlStr 3
    match fetched.2 with
    | .error _ => ⟨c1, fetched.1, []⟩
    | .ok resp =>
      if resp.StatusCode ≠ StatusOK then ⟨c1, fetched.1, []⟩
      else
        match lib.htmlParse resp.Body with
        | none => ⟨c1, fetched.1, []⟩
        | some doc =>
          let st := processLinks lib c1 doc t.urlStr t.domain t.depth t.maxDepth
          ⟨st.1, fetched.1, st.2⟩


/-! ## Descriptive definitions used to state the properties -/

mutual
/-- The `href` values of the `a` elements of a page, in the order in which
`processLinks` visits them (a node before its children, children left to
right, attributes in order). -/
def hrefs : Node → List GoString
  | .mk type data attr children =>
    (if type = NodeType.ElementNode ∧ data = "a".toList then
      (attr.filter fun a => a.Key = "href".toList).map fun a => a.Val
    else []) ++ hrefsList children
/-- The `href` values of a list of sibling nodes. -/
def hrefsList : List Node → List GoString
  | [] => []
  | child :: rest => hrefs child ++ hrefsList rest
end

/-- The link steps of `processLinks` taken over a list of `href` values. -/
def route (lib : Imports) (base domain : GoString) (depth maxDepth : Int)
    (links : List GoString) (st : LinkState) : LinkState :=
  links.foldl (fun st link => processLinks.link lib base domain depth maxDepth link st) st


/-- Several product links recorded under one domain, oldest first. -/
def appendProducts (c : Crawler) (domain : GoString) (urls : List GoString) : Crawler :=
  urls.foldl (fun c u => appendProduct c domain u) c

/-! ## Line 128 in concurrent goroutines -/

/-- A goroutine executing line 128 for a product link: the slice it has read
from the index (`none` before the read) and whether it has written. -/
structure Appender where
  domain : GoString
  fullURL : GoString
  slice : Option (List GoString)
  done : Bool
  deriving DecidableEq, Repr

/-- A goroutine about to execute line 128. -/
def Appender.start (domain fullURL : GoString) : Appender := ⟨domain, fullURL, none, false⟩

/-- The next step of a goroutine in line 128 on the shared crawler: the read,
then the write of the slice read with the link appended. -/
def Appender.step (c : Crawler) (a : Appender) : Crawler × Appender :=
  if a.done then (c, a)
  else
    match a.slice with
    | none => (c, { a with slice := some (indexRead c a.domain) })
    | some s => (indexWrite c a.domain s a.fullURL, { a with done := true })

/-- One scheduling decision: goroutine `i` takes its next step. -/
def race.step (st : Crawler × List Appender) (i : Nat) : Crawler × List Appender :=
  match st.2[i]? with
  | none => st
  | some a => ((Appender.step st.1 a).1, st.2.set i (Appender.step st.1 a).2)

/-- The goroutines `as` executing line 128 on the shared crawler `c` under a
schedule. -/
def race (c : Crawler) (as : List Appender) (schedule : List Nat) : Crawler × List Appender :=
  schedule.foldl race.step (c, as)

/-! ## Sequences of invocations, runs, and `main`

In the definitions of this section one `Crawl` invocation is one step.  That
is how the lock orders the test-and-set on `Visited`; the effects, the spawned
tasks and `Visited` of an invocation do not depend on the product index
(`crawl_index_independent`), which these definitions give for the executions
in which no goroutine is interrupted in line 128. -/

/-- A sequence of `Crawl` invocations on one crawler, taken in the order of
their lock-protected test-and-set on `Visited`, each with the network it
sees; the result lists the effects of each invocation. -/
def crawlAll (lib : Imports) : Crawler → List (Task × Network) → List (List Effect)
  | _, [] => []
  | c, (t, net) :: rest => (Crawl lib net c t).effects :: crawlAll lib (Crawl lib net c t).crawler rest

/-- The state of a run: the shared crawler, the goroutines spawned and not yet
executed, and for every executed invocation its task and its effects. -/
structure RunState where
  crawler : Crawler
  pending : List Task
  trace : List (Task × List Effect)

/-- One scheduling decision: which pending goroutine runs next, and the
network it sees. -/
structure Choice where
  index : Nat
  net : Network

/-- One step of a run: the chosen pending task is executed, its spawned tasks
join the pool. -/
def RunState.step (lib : Imports) (s : RunState) (ch : Choice) : RunState :=
  match s.pending[ch.index]? with
  | none => s
  | some t =>
    let r := Crawl lib ch.net s.crawler t
    { crawler := r.crawler
      pending := s.pending.eraseIdx ch.index ++ r.spawned
      trace := s.trace ++ [(t, r.effects)] }

/-- A run: the state reached from `s` under a schedule. -/
def RunState.run (lib : Imports) (s : RunState) (schedule : List Choice) : RunState :=
  schedule.foldl (RunState.step lib) s

/-- The start of a run with `maxDepth = N`: every seed is a task at depth 0. -/
def RunState.start (c : Crawler) (seeds : List (GoString × GoString)) (N : Int) : RunState :=
  { crawler := c
    pending := seeds.map fun seed => ⟨seed.1, seed.2, 0, N⟩
    trace := [] }

/-- The seed list of `main`. -/
def domains : List GoString :=
  [ "snitch.co.in".toList,
    "montecarlo.in".toList,
    "www.bewakoof.com/men-t-shirts?manufacturer_brand=bewakoof%C2%AE_bewakoof__air%C2%AE__1.0_bewakoof__heavy__duty%C2%AE__1.0&design=graphic__print_typography_printed".toList,
    "nykaafashion.com".toList,
    "www.zara.com/in/en/kids-baby-shop-by-size-12-18-months-l7229.html".toList,
    "nykaafashion.com".toList,
    "www.flipkart.com".toList,
    "www.amazon.in".toList ]

/-- The state of an execution of `main`: the crawler, the `sync.WaitGroup`
counter, the goroutines started and not yet executed (flagged `true` when the
goroutine is one of `main`'s own, which calls `wg.Done()` when its `Crawl`
returns), and the index handed to `SaveResults` once it has been called. -/
structure MainState where
  crawler : Crawler
  wg : Nat
  pending : List (Task × Bool)
  saved : Option (GoString → Option (List GoString))

/-- The scheduling decisions of an execution of `main`. -/
inductive MainAction
  | runTask (index : Nat) (net : Network)
  | waitAndSave

/-- The state of `main` after its loop (lines 23-31): `wg.Add(1)` and one
goroutine `crawler.Crawl("https://" + domain, domain, 0, maxDepth)` per
domain, `maxDepth := 100`. -/
def main.start : MainState :=
  { crawler := NewCrawler
    wg := domains.length
    pending := domains.map fun domain => (⟨"https://".toList ++ domain, domain, 0, 100⟩, true)
    saved := none }

/-- One step of `main`: a pending goroutine runs its `Crawl` (and then
`wg.Done()` when it is one of `main`'s own), or `main` passes `wg.Wait()`
(enabled when the counter is zero) and calls `SaveResults`. -/
def main.step (lib : Imports) (s : MainState) : MainAction → Option MainState
  | .runTask index net =>
    match s.pending[index]? with
    | none => none
    | some (t, own) =>
      let r := Crawl lib net s.crawler t
      some { crawler := r.crawler
             wg := if own then s.wg - 1 else s.wg
             pending := s.pending.eraseIdx index ++ r.spawned.map fun t => (t, false)
             saved := s.saved }
  | .waitAndSave =>
    if s.wg = 0 ∧ s.saved.isNone then some { s with saved := some s.crawler.ProductURLs }
    else none

/-- An execution of `main` under a schedule; `none` when the schedule asks for
a step that is not enabled. -/
def main.run (lib : Imports) : MainState → List MainAction → Option MainState
  | s, [] => some s
  | s, a :: rest =>
    match main.step lib s a with
    | none => none
    | some s' => main.run lib s' rest


/-! ## The Go standard library package `net/url`

`resolveURL` is three calls into `net/url`: `url.Parse`,
`(*URL).ResolveReference` and `(*URL).String`.  The package belongs to the Go
distribution, not to the repository; the definitions below embed those three
functions and what they call, function by function, after `net/url/url.go` of
Go 1.23.  An `error` result is `none`.  The theorem
`resolveReference_examples` below checks the embedding on the reference
resolution examples of RFC 3986, section 5.4. -/

namespace url

/-- Go `strings.Cut(s, sep)` for a one-byte separator: the text before the
first `sep`, the text after it, and whether `sep` was found. -/
def cut (sep : Char) : GoString → GoString × GoString × Bool
  | [] => ([], [], false)
  | c :: s =>
    if c = sep then ([], s, true)
    else ((c :: (cut sep s).1), (cut sep s).2.1, (cut sep s).2.2)

/-- The split of `s` at `i = strings.LastIndex(s, sep)` for a one-byte
separator: `(s[:i], s[i+1:])`, or `none` when `i < 0`. -/
def cutLast (sep : Char) : GoString → Option (GoString × GoString)
  | [] => none
  | c :: s =>
    match cutLast sep s with
    | some (a, b) => some (c :: a, b)
    | none => if c = sep then some ([], s) else none

/-- The split of `s` at `i = strings.Index(s, substr)`: `(s[:i], s[i:])`, or
`none` when `i < 0`. -/
def cutAt (substr : GoString) : GoString → Option (GoString × GoString)
  | [] => if substr.isPrefixOf [] then some ([], []) else none
  | c :: s =>
    if substr.isPrefixOf (c :: s) then some ([], c :: s)
    else
      match cutAt substr s with
      | some (a, b) => some (c :: a, b)
      | none => none

/-- The escaping modes of `net/url`. -/
inductive encoding
  | encodePath
  | encodePathSegment
  | encodeHost
  | encodeZone
  | encodeUserPassword
  | encodeQueryComponent
  | encodeFragment
  deriving DecidableEq, Repr

/-- Go `ishex`. -/
def ishex (c : Char) : Bool :=
  (decide ('0' ≤ c) && decide (c ≤ '9')) || (decide ('a' ≤ c) && decide (c ≤ 'f')) ||
    (decide ('A' ≤ c) && decide (c ≤ 'F'))

/-- Go `unhex`. -/
def unhex (c : Char) : Nat :=
  if '0' ≤ c ∧ c ≤ '9' then c.toNat - '0'.toNat
  else if 'a' ≤ c ∧ c ≤ 'f' then c.toNat - 'a'.toNat + 10
  else if 'A' ≤ c ∧ c ≤ 'F' then c.toNat - 'A'.toNat + 10
  else 0

/-- The first test of `shouldEscape`: an ASCII letter or digit. -/
def isAlnum (c : Char) : Bool :=
  (decide ('a' ≤ c) && decide (c ≤ 'z')) || (decide ('A' ≤ c) && decide (c ≤ 'Z')) ||
    (decide ('0' ≤ c) && decide (c ≤ '9'))

/-- Go `shouldEscape(c, mode)`. -/
def shouldEscape (c : Char) (mode : encoding) : Bool :=
  if isAlnum c then false
  else if (mode = .encodeHost ∨ mode = .encodeZone) ∧
      "!$&'()*+,;=:[]<>\"".toList.contains c then false
  else if "-_.~".toList.contains c then false
  else if "$&+,/:;=?@".toList.contains c then
    match mode with
    | .encodePath => c == '?'
    | .encodePathSegment => c == '/' || c == ';' || c == ',' || c == '?'
    | .encodeUserPassword => c == '@' || c == '/' || c == '?' || c == ':'
    | .encodeQueryComponent => true
    | .encodeFragment => false
    | _ => true
  else if mode = .encodeFragment ∧ "!()*".toList.contains c then false
  else true

/-- Go `unescape(s, mode)`: the validating pass and the decoding pass, taken
together; `none` is an `EscapeError` or an `InvalidHostError`. -/
def unescape (mode : encoding) : GoString → Option GoString
  | [] => some []
  | '%' :: a :: b :: rest =>
    if !(ishex a && ishex b) then none
    else if mode = .encodeHost ∧ unhex a < 8 ∧ ¬ (a = '2' ∧ b = '5') then none
    else if mode = .encodeZone ∧ ¬ (a = '2' ∧ b = '5') ∧
        Char.ofNat (16 * unhex a + unhex b) ≠ ' ' ∧
        shouldEscape (Char.ofNat (16 * unhex a + unhex b)) .encodeHost then none
    else (unescape mode rest).map fun t => Char.ofNat (16 * unhex a + unhex b) :: t
  | '%' :: _ => none
  | '+' :: rest =>
    (unescape mode rest).map fun t =>
      (if mode = .encodeQueryComponent then ' ' else '+') :: t
  | c :: rest =>
    if (mode = .encodeHost ∨ mode = .encodeZone) ∧ c.toNat < 0x80 ∧ shouldEscape c mode then none
    else (unescape mode rest).map fun t => c :: t

/-- The table `upperhex`. -/
def upperhex (n : Nat) : Char := "0123456789ABCDEF".toList.getD n '0'

/-- Go `escape(s, mode)`. -/
def escape (mode : encoding) : GoString → GoString
  | [] => []
  | c :: rest =>
    if shouldEscape c mode then
      if c = ' ' ∧ mode = .encodeQueryComponent then '+' :: escape mode rest
      else '%' :: upperhex (c.toNat / 16 % 16) :: upperhex (c.toNat % 16) :: escape mode rest
    else c :: escape mode rest

/-- Go `validEncoded(s, mode)`. -/
def validEncoded (mode : encoding) : GoString → Bool
  | [] => true
  | c :: rest =>
    if "!$&'()*+,;=:@[]%".toList.contains c then validEncoded mode rest
    else if shouldEscape c mode then false
    else validEncoded mode rest

/-- Go `stringContainsCTLByte`. -/
def stringContainsCTLByte (s : GoString) : Bool :=
  s.any fun b => decide (b.toNat < 0x20) || decide (b.toNat = 0x7f)

/-- The loop of `getScheme`, with the bytes already read in `seen`. -/
def getScheme.loop (rawURL : GoString) : GoString → GoString → Option (GoString × GoString)
  | _, [] => some ([], rawURL)
  | seen, c :: s =>
    if (decide ('a' ≤ c) && decide (c ≤ 'z')) || (decide ('A' ≤ c) && decide (c ≤ 'Z')) then
      getScheme.loop rawURL (seen ++ [c]) s
    else if (decide ('0' ≤ c) && decide (c ≤ '9')) || c == '+' || c == '-' || c == '.' then
      if seen = [] then some ([], rawURL) else getScheme.loop rawURL (seen ++ [c]) s
    else if c = ':' then
      if seen = [] then none else some (seen, s)
    else some ([], rawURL)

/-- Go `getScheme(rawURL)`: `(scheme, path)`, or `none` for the error
"missing protocol scheme". -/
def getScheme (rawURL : GoString) : Option (GoString × GoString) :=
  getScheme.loop rawURL [] rawURL

/-- Go `url.Userinfo`. -/
structure Userinfo where
  username : GoString
  password : GoString
  passwordSet : Bool
  deriving DecidableEq, Repr

/-- Go `url.URL`. -/
structure URL where
  Scheme : GoString := []
  Opaque : GoString := []
  User : Option Userinfo := none
  Host : GoString := []
  Path : GoString := []
  RawPath : GoString := []
  OmitHost : Bool := false
  ForceQuery : Bool := false
  RawQuery : GoString := []
  Fragment : GoString := []
  RawFragment : GoString := []
  deriving DecidableEq, Repr

/-- Go `validOptionalPort`. -/
def validOptionalPort : GoString → Bool
  | [] => true
  | c :: rest => c == ':' && rest.all fun b => decide ('0' ≤ b) && decide (b ≤ '9')

/-- Go `validUserinfo`. -/
def validUserinfo (s : GoString) : Bool :=
  s.all fun r => isAlnum r || "-._:~!$&'()*+,;=%@".toList.contains r

/-- Go `parseHost`. -/
def parseHost (host : GoString) : Option GoString :=
  match host with
  | '[' :: _ =>
    match cutLast ']' host with
    | none => none
    | some (inner, colonPort) =>
      if !validOptionalPort colonPort then none
      else
        match cutAt "%25".toList inner with
        | some (host1, host2) =>
          match unescape .encodeHost host1, unescape .encodeZone host2,
              unescape .encodeHost (']' :: colonPort) with
          | some h1, some h2, some h3 => some (h1 ++ h2 ++ h3)
          | _, _, _ => none
        | none => unescape .encodeHost host
  | _ =>
    match cutLast ':' host with
    | some (_, port) =>
      if !validOptionalPort (':' :: port) then none else unescape .encodeHost host
    | none => unescape .encodeHost host

/-- Go `parseAuthority`. -/
def parseAuthority (authority : GoString) : Option (Option Userinfo × GoString) :=
  match cutLast '@' authority with
  | none => (parseHost authority).map fun host => (none, host)
  | some (userinfo, hostport) =>
    match parseHost hostport with
    | none => none
    | some host =>
      if !validUserinfo userinfo then none
      else if !userinfo.contains ':' then
        (unescape .encodeUserPassword userinfo).map fun u => (some ⟨u, [], false⟩, host)
      else
        match unescape .encodeUserPassword (cut ':' userinfo).1,
            unescape .encodeUserPassword (cut ':' userinfo).2.1 with
        | some username, some password => some (some ⟨username, password, true⟩, host)
        | _, _ => none

/-- Go `(*URL).setPath`. -/
def URL.setPath (u : URL) (p : GoString) : Option URL :=
  match unescape .encodePath p with
  | none => none
  | some path =>
    some { u with Path := path, RawPath := if escape .encodePath path = p then [] else p }

/-- Go `(*URL).setFragment`. -/
def URL.setFragment (u : URL) (f : GoString) : Option URL :=
  match unescape .encodeFragment f with
  | none => none
  | some frag =>
    some { u with Fragment := frag,
                  RawFragment := if escape .encodeFragment frag = f then [] else f }

/-- Go `parse(rawURL, viaRequest)` with `viaRequest = false`. -/
def parse (rawURL : GoString) : Option URL :=
  if stringContainsCTLByte rawURL then none
  else if rawURL = "*".toList then some { Path := "*".toList }
  else
    match getScheme rawURL with
    | none => none
    | some (scheme, rest0) =>
      let scheme := scheme.map Char.toLower
      let forceQuery := rest0.getLast? = some '?' ∧ rest0.count '?' = 1
      let rest := if forceQuery then rest0.dropLast else (cut '?' rest0).1
      let rawQuery := if forceQuery then [] else (cut '?' rest0).2.1
      let url : URL := { Scheme := scheme, ForceQuery := forceQuery, RawQuery := rawQuery }
      if rest.head? ≠ some '/' ∧ scheme ≠ [] then some { url with Opaque := rest }
      else if rest.head? ≠ some '/' ∧ (cut '/' rest).1.contains ':' then none
      else if (scheme ≠ [] ∨ ¬ "///".toList.isPrefixOf rest) ∧ "//".toList.isPrefixOf rest then
        let authority := (cut '/' (rest.drop 2)).1
        let rest' := if (cut '/' (rest.drop 2)).2.2 then '/' :: (cut '/' (rest.drop 2)).2.1 else []
        match parseAuthority authority with
        | none => none
        | some (user, host) => URL.setPath { url with User := user, Host := host } rest'
      else if scheme ≠ [] ∧ rest.head? = some '/' then
        URL.setPath { url with OmitHost := true } rest
      else URL.setPath url rest

/-- Go `url.Parse`. -/
def Parse (rawURL : GoString) : Option URL :=
  match parse (cut '#' rawURL).1 with
  | none => none
  | some url =>
    if (cut '#' rawURL).2.1 = [] then some url
    else URL.setFragment url (cut '#' rawURL).2.1

/-- Go `(*URL).EscapedPath`. -/
def URL.EscapedPath (u : URL) : GoString :=
  if u.RawPath ≠ [] ∧ validEncoded .encodePath u.RawPath ∧
      unescape .encodePath u.RawPath = some u.Path then u.RawPath
  else if u.Path = "*".toList then "*".toList
  else escape .encodePath u.Path

/-- Go `(*URL).EscapedFragment`. -/
def URL.EscapedFragment (u : URL) : GoString :=
  if u.RawFragment ≠ [] ∧ validEncoded .encodeFragment u.RawFragment ∧
      unescape .encodeFragment u.RawFragment = some u.Fragment then u.RawFragment
  else escape .encodeFragment u.Fragment

/-- Go `(*Userinfo).String`. -/
def Userinfo.String (u : Userinfo) : GoString :=
  escape .encodeUserPassword u.username ++
    (if u.passwordSet then ':' :: escape .encodeUserPassword u.password else [])

/-- Go `(*URL).String`. -/
def URL.String (u : URL) : GoString :=
  let buf1 := if u.Scheme ≠ [] then u.Scheme ++ [':'] else []
  let buf2 :=
    if u.Opaque ≠ [] then buf1 ++ u.Opaque
    else
      let buf3 :=
        if u.Scheme ≠ [] ∨ u.Host ≠ [] ∨ u.User.isSome then
          if u.OmitHost ∧ u.Host = [] ∧ u.User.isNone then buf1
          else
            buf1 ++ (if u.Host ≠ [] ∨ u.Path ≠ [] ∨ u.User.isSome then "//".toList else []) ++
              (match u.User with
                | some ui => Userinfo.String ui ++ ['@']
                | none => []) ++
              (if u.Host ≠ [] then escape .encodeHost u.Host else [])
        else buf1
      let path := URL.EscapedPath u
      let buf4 := if path ≠ [] ∧ path.head? ≠ some '/' ∧ u.Host ≠ [] then buf3 ++ ['/'] else buf3
      let buf5 := if buf4 = [] ∧ (cut '/' path).1.contains ':' then buf4 ++ "./".toList else buf4
      buf5 ++ path
  let buf6 := if u.ForceQuery ∨ u.RawQuery ≠ [] then buf2 ++ ['?'] ++ u.RawQuery else buf2
  if u.Fragment ≠ [] then buf6 ++ ['#'] ++ URL.EscapedFragment u else buf6

/-- The elements of a path between its `/` separators, as the loop of
`resolvePath` takes them with `strings.Cut(remaining, "/")`. -/
def elems : GoString → List GoString
  | [] => [[]]
  | c :: s =>
    if c = '/' then [] :: elems s
    else
      match elems s with
      | e :: rest => (c :: e) :: rest
      | [] => [[c]]

/-- One iteration of the loop of `resolvePath` on the state `(dst, first)`. -/
def resolvePath.step (st : GoString × Bool) (elem : GoString) : GoString × Bool :=
  if elem = ".".toList then (st.1, false)
  else if elem = "..".toList then
    match cutLast '/' (st.1.drop 1) with
    | none => ("/".toList, true)
    | some (kept, _) => ('/' :: kept, st.2)
  else ((if st.2 then st.1 else st.1 ++ ['/']) ++ elem, false)

/-- The first statement of `resolvePath`: the path `full` to normalise. -/
def resolvePath.full (base ref : GoString) : GoString :=
  if ref = [] then base
  else if ref.head? ≠ some '/' then
    (match cutLast '/' base with
      | some (dir, _) => dir ++ ['/']
      | none => []) ++ ref
  else ref

/-- The rest of `resolvePath`: the loop over the elements of `full`, the
trailing `/` after a final `.` or `..`, and the removal of a doubled leading
`/`. -/
def resolvePath.clean (full : GoString) : GoString :=
  if full = [] then []
  else
    let dst := ((elems full).foldl resolvePath.step ("/".toList, true)).1
    let last := (elems full).getLast?.getD []
    let r := if last = ".".toList ∨ last = "..".toList then dst ++ ['/'] else dst
    if 1 < r.length ∧ (r.drop 1).head? = some '/' then r.drop 1 else r

/-- Go `resolvePath(base, ref)`. -/
def resolvePath (base ref : GoString) : GoString :=
  resolvePath.clean (resolvePath.full base ref)

/-- Go `(*URL).ResolveReference`.  `setPath` is applied to a path that
`EscapedPath` and `resolvePath` produced; should it fail the path is left as
it was (the Go code ignores the error). -/
def URL.ResolveReference (u ref : URL) : URL :=
  let url : URL := if ref.Scheme = [] then { ref with Scheme := u.Scheme } else ref
  if ref.Scheme ≠ [] ∨ ref.Host ≠ [] ∨ ref.User.isSome then
    (URL.setPath url (resolvePath (URL.EscapedPath ref) [])).getD url
  else if ref.Opaque ≠ [] then { url with User := none, Host := [], Path := [] }
  else
    let url : URL :=
      if ref.Path = [] ∧ ¬ ref.ForceQuery ∧ ref.RawQuery = [] then
        if ref.Fragment = [] then
          { url with RawQuery := u.RawQuery, Fragment := u.Fragment, RawFragment := u.RawFragment }
        else { url with RawQuery := u.RawQuery }
      else url
    if ref.Path = [] ∧ u.Opaque ≠ [] then
      { url with Opaque := u.Opaque, User := none, Host := [], Path := [] }
    else
      let url : URL := { url with Host := u.Host, User := u.User }
      (URL.setPath url (resolvePath (URL.EscapedPath u) (URL.EscapedPath ref))).getD url

end url

/-- The imported packages with `net/url` as embedded above, for a given
`html.Parse`. -/
def goImports (htmlParse : GoString → Option Node) : Imports :=
  { URL := url.URL
    urlParse := url.Parse
    ResolveReference := url.URL.ResolveReference
    urlString := url.URL.String
    htmlParse := htmlParse }


/-! ## Plain URLs (used to state C7 in general) -/

/-- An unreserved byte of RFC 3986: a letter, a digit, or one of `-._~`. -/
def plainByte (c : Char) : Bool := url.isAlnum c || "-._~".toList.contains c

/-- A plain path segment: not empty, made of unreserved bytes, and neither `.`
nor `..`. -/
def plainSegment (s : GoString) : Bool :=
  !s.isEmpty && s.all plainByte && s != ".".toList && s != "..".toList

/-- The path `/s1/s2/.../sn` with the given segments. -/
def joinPath (segs : List GoString) : GoString := (segs.map fun s => '/' :: s).flatten


/-! ## Example inputs -/

/-- An `a` element with one `href` attribute and no children. -/
def anchor (href : GoString) : Node :=
  .mk .ElementNode "a".toList [⟨[], "href".toList, href⟩] []

/-- A parsed page with the given body nodes. -/
def pageOf (body : List Node) : Node :=
  .mk .DocumentNode [] []
    [.mk .ElementNode "html".toList []
      [.mk .ElementNode "head".toList [] [], .mk .ElementNode "body".toList [] body]]

/-- The page of the end-to-end example: its only links are `/product/42`,
`/about` and `https://other.example/x`. -/
def examplePage : Node :=
  pageOf
    [ anchor "/product/42".toList,
      .mk .ElementNode "p".toList [⟨[], "class".toList, "nav".toList⟩]
        [.mk .TextNode "see ".toList [] [], anchor "/about".toList],
      anchor "https://other.example/x".toList ]

/-- A page with one link that `url.Parse` rejects (`:` has no scheme before
the colon) followed by the link `/about`. -/
def badLinkPage : Node := pageOf [anchor ":".toList, anchor "/about".toList]

/-- A page whose only link is `/about`. -/
def aboutPage : Node := pageOf [anchor "/about".toList]

/-- A network on which every request is answered with status 500. -/
def alwaysStatus500 : Network := fun _ _ => .resp ⟨500, []⟩

/-- A network on which every request is answered with status 200. -/
def alwaysStatus200 : Network := fun _ _ => .resp ⟨200, []⟩

/-- A network on which the first seed of `main` is answered with status 200
and every other request fails. -/
def onlySnitch : Network := fun urlStr _ =>
  if urlStr = "https://snitch.co.in".toList then .resp ⟨200, []⟩ else .err "no route".toList

/-- A schedule of `main`: its eight goroutines run one after the other, then
`main` passes `wg.Wait()` and calls `SaveResults`. -/
def earlySave : List MainAction :=
  List.replicate 8 (.runTask 0 onlySnitch) ++ [.waitAndSave]



/-! ## Lemmas on strings and matching -/

theorem contains_iff (s substr : GoString) :
    Contains s substr = true ↔ substr <:+: s := by
  induction s with
  | nil =>
    simp only [Contains, List.isPrefixOf_iff_prefix]
    constructor
    · intro h; exact h.isInfix
    · intro h
      have := List.eq_nil_of_infix_nil h
      subst this; exact List.prefix_rfl
  | cons c s ih =>
    simp only [Contains, Bool.or_eq_true, List.isPrefixOf_iff_prefix, ih]
    rw [List.infix_cons_iff]

theorem matchHere_lits (l : GoString) : ∀ s : GoString,
    matchHere (lits l) s = true ↔ l <+: s := by
  induction l with
  | nil => intro s; simp [lits, matchHere]
  | cons a l ih =>
    intro s
    cases s with
    | nil => simp [lits, matchHere]
    | cons c cs =>
      have := ih cs
      simp only [lits] at this
      simp only [lits, List.map_cons, matchHere, CharClass.test, Bool.and_eq_true, beq_iff_eq,
        Bool.or_eq_true, Bool.false_and, Bool.false_eq_true, or_false, this,
        List.cons_prefix_cons]
      constructor <;> rintro ⟨h1, h2⟩ <;> exact ⟨h1.symm, h2⟩

theorem matchHere_lits_digits (l : GoString) : ∀ s : GoString,
    matchHere (lits l ++ [⟨.digit, true⟩]) s = true ↔
      ∃ d, ('0' ≤ d ∧ d ≤ '9') ∧ l ++ [d] <+: s := by
  induction l with
  | nil =>
    intro s
    cases s with
    | nil => simp [lits, matchHere]
    | cons c cs =>
      simp [lits, matchHere, CharClass.test, List.cons_prefix_cons]
  | cons a l ih =>
    intro s
    cases s with
    | nil => simp [lits, matchHere]
    | cons c cs =>
      have := ih cs
      have hcons : lits (a :: l) ++ [⟨.digit, true⟩] =
          ⟨.lit a, false⟩ :: (lits l ++ [⟨.digit, true⟩]) := rfl
      rw [hcons]
      simp only [matchHere, CharClass.test, Bool.and_eq_true, Bool.or_eq_true, beq_iff_eq,
        this, Bool.false_and, Bool.false_eq_true, or_false, List.cons_append,
        List.cons_prefix_cons]
      constructor
      · rintro ⟨rfl, d, hd, hp⟩; exact ⟨d, hd, rfl, hp⟩
      · rintro ⟨d, hd, rfl, hp⟩; exact ⟨rfl, d, hd, hp⟩

theorem matchString_iff (re : Regexp) (s : GoString) :
    MatchString re s = true ↔ ∃ t, t <:+ s ∧ matchHere re t = true := by
  induction s with
  | nil =>
    simp only [MatchString, List.suffix_nil]
    constructor
    · intro h; exact ⟨[], rfl, h⟩
    · rintro ⟨t, rfl, h⟩; exact h
  | cons c s ih =>
    simp only [MatchString, Bool.or_eq_true, ih, List.suffix_cons_iff]
    constructor
    · rintro (h | ⟨t, ht, h⟩)
      · exact ⟨c :: s, Or.inl rfl, h⟩
      · exact ⟨t, Or.inr ht, h⟩
    · rintro ⟨t, (rfl | ht), h⟩
      · exact Or.inl h
      · exact Or.inr ⟨t, ht, h⟩

theorem matchString_lits (l s : GoString) :
    MatchString (lits l) s = true ↔ l <:+: s := by
  rw [matchString_iff, List.infix_iff_prefix_suffix]
  constructor
  · rintro ⟨t, ht, h⟩; exact ⟨t, (matchHere_lits l t).1 h, ht⟩
  · rintro ⟨t, h, ht⟩; exact ⟨t, ht, (matchHere_lits l t).2 h⟩

theorem digits_infix_iff (l s : GoString) :
    (∃ d, ('0' ≤ d ∧ d ≤ '9') ∧ l ++ [d] <:+: s) ↔
      ∃ ds : GoString, ds ≠ [] ∧ (∀ d ∈ ds, '0' ≤ d ∧ d ≤ '9') ∧ l ++ ds <:+: s := by
  constructor
  · rintro ⟨d, hd, h⟩
    exact ⟨[d], by simp, by simpa using hd, h⟩
  · rintro ⟨ds, hne, hall, h⟩
    cases ds with
    | nil => exact absurd rfl hne
    | cons d ds =>
      refine ⟨d, hall d (by simp), ?_⟩
      have hpre : l ++ [d] <+: l ++ d :: ds := ⟨ds, by simp⟩
      exact hpre.isInfix.trans h

theorem matchString_lits_digits (l s : GoString) :
    MatchString (lits l ++ [⟨.digit, true⟩]) s = true ↔
      ∃ ds : GoString, ds ≠ [] ∧ (∀ d ∈ ds, '0' ≤ d ∧ d ≤ '9') ∧ l ++ ds <:+: s := by
  rw [← digits_infix_iff, matchString_iff]
  constructor
  · rintro ⟨t, ht, h⟩
    obtain ⟨d, hd, hp⟩ := (matchHere_lits_digits l t).1 h
    exact ⟨d, hd, List.infix_iff_prefix_suffix.2 ⟨t, hp, ht⟩⟩
  · rintro ⟨d, hd, h⟩
    obtain ⟨t, hp, ht⟩ := List.infix_iff_prefix_suffix.1 h
    exact ⟨t, ht, (matchHere_lits_digits l t).2 ⟨d, hd, hp⟩⟩

theorem isProductURL_loop_iff (link : GoString) (ps : List Regexp) :
    isProductURL.loop link ps = true ↔ ∃ p ∈ ps, MatchString p link = true := by
  induction ps with
  | nil => simp [isProductURL.loop]
  | cons p ps ih =>
    simp only [isProductURL.loop, List.mem_cons, exists_eq_or_imp]
    by_cases h : MatchString p link = true
    · simp [h]
    · simp [h, ih]

theorem patterns_eq :
    patterns =
      [ lits "/product/".toList, lits "/products/".toList, lits "/productpage".toList,
        lits "/item/".toList, lits "/p/".toList, lits "/pl/".toList, lits "/buy".toList,
        lits "/dp/".toList,
        lits "-p-".toList ++ [⟨.digit, true⟩],
        lits "-p".toList ++ [⟨.digit, true⟩],
        lits "/catalog/product/view/".toList ] := by
  decide

/-! ## C2: the classifier -/

/-- C2. `isProductURL` on a crawler built by `NewCrawler` is true exactly when
the link contains one of the nine literal substrings, or `-p-` followed by at
least one ASCII digit, or `-p` followed by at least one ASCII digit (matching
is by substring and case-sensitive); the result is the same for every order in
which the patterns are tried; `https://x.com/Product/1` is not a product URL
and `https://x.com/shirt-p123` is. -/
theorem isProductURL_classifier (u : GoString) :
    (isProductURL NewCrawler u = true ↔
      ((∃ lit ∈ ["/product/", "/products/", "/productpage", "/item/", "/p/", "/pl/", "/buy",
          "/dp/", "/catalog/product/view/"], String.toList lit <:+: u) ∨
       (∃ ds : GoString, ds ≠ [] ∧ (∀ d ∈ ds, '0' ≤ d ∧ d ≤ '9') ∧
          "-p-".toList ++ ds <:+: u) ∨
       (∃ ds : GoString, ds ≠ [] ∧ (∀ d ∈ ds, '0' ≤ d ∧ d ≤ '9') ∧
          "-p".toList ++ ds <:+: u))) ∧
    (∀ ps : List Regexp, ps.Perm NewCrawler.Patterns →
      isProductURL { NewCrawler with Patterns := ps } u = isProductURL NewCrawler u) ∧
    isProductURL NewCrawler "https://x.com/Product/1".toList = false ∧
    isProductURL NewCrawler "https://x.com/shirt-p123".toList = true := by
  refine ⟨?_, ?_, by decide, by decide⟩
  · simp only [isProductURL, NewCrawler, isProductURL_loop_iff, patterns_eq, List.mem_cons,
      List.mem_singleton, exists_eq_or_imp, exists_eq_left, matchString_lits,
      matchString_lits_digits, List.not_mem_nil, false_and, exists_false, or_false]
    generalize (∃ ds : GoString, ds ≠ [] ∧ (∀ d ∈ ds, '0' ≤ d ∧ d ≤ '9') ∧
      "-p-".toList ++ ds <:+: u) = D1
    generalize (∃ ds : GoString, ds ≠ [] ∧ (∀ d ∈ ds, '0' ≤ d ∧ d ≤ '9') ∧
      "-p".toList ++ ds <:+: u) = D2
    tauto
  · intro ps hperm
    simp only [isProductURL]
    rw [Bool.eq_iff_iff, isProductURL_loop_iff, isProductURL_loop_iff]
    constructor
    · rintro ⟨p, hp, h⟩; exact ⟨p, hperm.mem_iff.1 hp, h⟩
    · rintro ⟨p, hp, h⟩; exact ⟨p, hperm.mem_iff.2 hp, h⟩

/-! ## C5, C6: the retrying fetcher -/

theorem fetchWithRetry_loop_fail (net : Network) (urlStr : GoString) (retries : Int) :
    ∀ (n i : Nat),
      (∀ j, j < n → ¬ ∃ r, net urlStr (i + j) = .resp r ∧ r.StatusCode = 200) →
      fetchWithRetry.loop net urlStr retries n i =
        ((List.replicate n [Effect.request urlStr, Effect.sleep 2]).flatten,
          .error (retryError urlStr retries)) := by
  intro n
  induction n with
  | zero => intro i _; rfl
  | succ n ih =>
    intro i h
    have h0 := h 0 (Nat.succ_pos n)
    have hrest := ih (i + 1) (fun j hj => by
      have := h (j + 1) (Nat.succ_lt_succ hj)
      rwa [show i + 1 + j = i + (j + 1) by omega])
    simp only [Nat.add_zero] at h0
    simp only [fetchWithRetry.loop, fetchURL, List.replicate_succ, List.flatten_cons]
    cases hres : net urlStr i with
    | err msg => simp [hrest]
    | resp r =>
      have hne : ¬ r.StatusCode = StatusOK := fun hs => h0 ⟨r, hres, hs⟩
      simp [hne, hrest]

theorem fetchWithRetry_loop_first (net : Network) (urlStr : GoString) (retries : Int)
    (r : Response) (hr : r.StatusCode = 200) :
    ∀ (k n i : Nat), k < n →
      (∀ j, j < k → ¬ ∃ r', net urlStr (i + j) = .resp r' ∧ r'.StatusCode = 200) →
      net urlStr (i + k) = .resp r →
      fetchWithRetry.loop net urlStr retries n i =
        ((List.replicate k [Effect.request urlStr, Effect.sleep 2]).flatten ++
          [Effect.request urlStr], .ok r) := by
  intro k
  induction k with
  | zero =>
    intro n i hn _ hres
    obtain ⟨m, rfl⟩ : ∃ m, n = m + 1 := ⟨n - 1, by omega⟩
    simp only [Nat.add_zero] at hres
    simp [fetchWithRetry.loop, fetchURL, hres, hr, StatusOK]
  | succ k ih =>
    intro n i hn h hres
    obtain ⟨m, rfl⟩ : ∃ m, n = m + 1 := ⟨n - 1, by omega⟩
    have h0 := h 0 (Nat.succ_pos k)
    simp only [Nat.add_zero] at h0
    have hrest := ih m (i + 1) (by omega) (fun j hj => by
      have := h (j + 1) (Nat.succ_lt_succ hj)
      rwa [show i + 1 + j = i + (j + 1) by omega]) (by
      rwa [show i + 1 + k = i + (k + 1) by omega])
    simp only [fetchWithRetry.loop, fetchURL, List.replicate_succ, List.flatten_cons]
    cases hres0 : net urlStr i with
    | err msg => simp [hrest]
    | resp r0 =>
      have hne : ¬ r0.StatusCode = StatusOK := fun hs => h0 ⟨r0, hres0, hs⟩
      simp [hne, hrest]

/-- C5. Against an endpoint on which every attempt fails (an error, or a status
other than 200), `fetchWithRetry(u, n)` makes exactly `n` requests, each
followed by the 2-second backoff sleep (so consecutive requests are separated
by a sleep), and returns the error
`Failed to fetch URL <u> after <n> retries`. -/
theorem fetchWithRetry_exhausted (net : Network) (u : GoString) (n : Nat)
    (hfail : ∀ i, ¬ ∃ r, net u i = .resp r ∧ r.StatusCode = 200) :
    (fetchWithRetry net u n).1 =
        (List.replicate n [Effect.request u, Effect.sleep 2]).flatten ∧
      ((fetchWithRetry net u n).1.filter (· = Effect.request u)).length = n ∧
      (fetchWithRetry net u n).2 =
        .error ("Failed to fetch URL ".toList ++ u ++ " after ".toList ++
          (toString n).toList ++ " retries".toList) := by
  have h := fetchWithRetry_loop_fail net u n n 0 (fun j _ => by simpa using hfail j)
  have hcount : ∀ m : Nat,
      ((List.replicate m [Effect.request u, Effect.sleep 2]).flatten.filter
        (· = Effect.request u)).length = m := by
    intro m
    induction m with
    | zero => rfl
    | succ m ih =>
      simp only [List.replicate_succ, List.flatten_cons, List.cons_append, List.nil_append]
      simp [List.filter_cons, ih]
  simp only [fetchWithRetry, Int.toNat_natCast, h, hcount, true_and]
  rfl

/-- C5, at an endpoint that always answers 500 and `n = 3`: three requests. -/
theorem fetchWithRetry_exhausted_witness :
    fetchWithRetry (fun _ _ => .resp ⟨500, []⟩) "https://x.com".toList 3 =
      ([.request "https://x.com".toList, .sleep 2, .request "https://x.com".toList, .sleep 2,
        .request "https://x.com".toList, .sleep 2],
       .error "Failed to fetch URL https://x.com after 3 retries".toList) := by
  have h := fetchWithRetry_exhausted (fun _ _ => .resp ⟨500, []⟩) "https://x.com".toList 3
    (by rintro i ⟨r, hr, hs⟩; cases hr; exact absurd hs (by decide))
  exact Prod.ext h.1 h.2.2

/-- C6. `fetchWithRetry` returns a response without error exactly when one of
the first `retries` attempts completes without error and with status 200; the
response is that of the first such attempt `k`, every earlier attempt
(whatever its failure) is followed by the backoff sleep and the next attempt,
and no request is made after attempt `k`. -/
theorem fetchWithRetry_success (net : Network) (u : GoString) (retries : Int) :
    ((∃ r, (fetchWithRetry net u retries).2 = .ok r) ↔
      ∃ i : Nat, (i : Int) < retries ∧ ∃ r, net u i = .resp r ∧ r.StatusCode = 200) ∧
    (∀ (k : Nat) (r : Response), (k : Int) < retries →
      (∀ j, j < k → ¬ ∃ r', net u j = .resp r' ∧ r'.StatusCode = 200) →
      net u k = .resp r → r.StatusCode = 200 →
      fetchWithRetry net u retries =
        ((List.replicate k [Effect.request u, Effect.sleep 2]).flatten ++
          [Effect.request u], .ok r)) := by
  have hsecond : ∀ (k : Nat) (r : Response), (k : Int) < retries →
      (∀ j, j < k → ¬ ∃ r', net u j = .resp r' ∧ r'.StatusCode = 200) →
      net u k = .resp r → r.StatusCode = 200 →
      fetchWithRetry net u retries =
        ((List.replicate k [Effect.request u, Effect.sleep 2]).flatten ++
          [Effect.request u], .ok r) := by
    intro k r hk hbefore hres hr
    have hk' : k < retries.toNat := Int.lt_toNat.2 hk
    exact fetchWithRetry_loop_first net u retries r hr k retries.toNat 0 hk'
      (fun j hj => by simpa using hbefore j hj) (by simpa using hres)
  refine ⟨⟨?_, ?_⟩, hsecond⟩
  · rintro ⟨r, hok⟩
    by_contra hnone
    have hall : ∀ j, j < retries.toNat →
        ¬ ∃ r, net u (0 + j) = .resp r ∧ r.StatusCode = 200 := by
      intro j hj hex
      rw [Nat.zero_add] at hex
      exact hnone ⟨j, Int.lt_toNat.1 hj, hex⟩
    have := fetchWithRetry_loop_fail net u retries retries.toNat 0 hall
    simp only [fetchWithRetry, this] at hok
    cases hok
  · rintro ⟨i, hi, hex⟩
    classical
    have hP : ∃ i : Nat, (∃ r, net u i = .resp r ∧ r.StatusCode = 200) := ⟨i, hex⟩
    obtain ⟨r, hres, hr⟩ := Nat.find_spec hP
    have hle : Nat.find hP ≤ i := Nat.find_min' hP hex
    have hk : ((Nat.find hP : Nat) : Int) < retries := lt_of_le_of_lt (by exact_mod_cast hle) hi
    have := hsecond (Nat.find hP) r hk (fun j hj => Nat.find_min hP hj) hres hr
    exact ⟨r, by rw [this]⟩

/-! ## The structure of `processLinks` -/

theorem route_nil (lib : Imports) (base domain : GoString) (depth maxDepth : Int)
    (st : LinkState) : route lib base domain depth maxDepth [] st = st := rfl

theorem route_cons (lib : Imports) (base domain : GoString) (depth maxDepth : Int)
    (l : GoString) (ls : List GoString) (st : LinkState) :
    route lib base domain depth maxDepth (l :: ls) st =
      route lib base domain depth maxDepth ls
        (processLinks.link lib base domain depth maxDepth l st) := rfl

theorem route_append (lib : Imports) (base domain : GoString) (depth maxDepth : Int)
    (l₁ l₂ : List GoString) (st : LinkState) :
    route lib base domain depth maxDepth (l₁ ++ l₂) st =
      route lib base domain depth maxDepth l₂ (route lib base domain depth maxDepth l₁ st) := by
  simp [route, List.foldl_append]

theorem processLinks_attrs_eq (lib : Imports) (base domain : GoString) (depth maxDepth : Int) :
    ∀ (attr : List Attribute) (st : LinkState),
      processLinks.attrs lib base domain depth maxDepth attr st =
        route lib base domain depth maxDepth
          ((attr.filter fun a => a.Key = "href".toList).map fun a => a.Val) st := by
  intro attr
  induction attr with
  | nil => intro st; rfl
  | cons a rest ih =>
    intro st
    by_cases h : a.Key = "href".toList
    · have hf : (List.filter (fun a : Attribute => decide (a.Key = "href".toList)) (a :: rest)) =
          a :: List.filter (fun a : Attribute => decide (a.Key = "href".toList)) rest :=
        List.filter_cons_of_pos (decide_eq_true h)
      rw [processLinks.attrs, if_pos h, ih, hf, List.map_cons, route_cons]
    · have hf : (List.filter (fun a : Attribute => decide (a.Key = "href".toList)) (a :: rest)) =
          List.filter (fun a : Attribute => decide (a.Key = "href".toList)) rest :=
        List.filter_cons_of_neg (by simpa using h)
      rw [processLinks.attrs, if_neg h, ih, hf]

mutual
theorem processLinks_f_eq (lib : Imports) (base domain : GoString) (depth maxDepth : Int) :
    ∀ (n : Node) (st : LinkState),
      processLinks.f lib base domain depth maxDepth n st =
        route lib base domain depth maxDepth (hrefs n) st
  | .mk type data attr children, st => by
    rw [processLinks.f, hrefs, route_append,
      processLinks_children_eq lib base domain depth maxDepth children]
    by_cases h : type = NodeType.ElementNode ∧ data = "a".toList
    · rw [if_pos h, if_pos h, processLinks_attrs_eq]
    · rw [if_neg h, if_neg h, route_nil]
theorem processLinks_children_eq (lib : Imports) (base domain : GoString)
    (depth maxDepth : Int) :
    ∀ (ns : List Node) (st : LinkState),
      processLinks.children lib base domain depth maxDepth ns st =
        route lib base domain depth maxDepth (hrefsList ns) st
  | [], st => by rw [processLinks.children, hrefsList, route_nil]
  | child :: rest, st => by
    rw [processLinks.children, hrefsList, route_append,
      processLinks_f_eq lib base domain depth maxDepth child,
      processLinks_children_eq lib base domain depth maxDepth rest]
end

theorem processLinks_eq_route (lib : Imports) (c : Crawler) (node : Node)
    (base domain : GoString) (depth maxDepth : Int) :
    processLinks lib c node base domain depth maxDepth =
      route lib base domain depth maxDepth (hrefs node) (c, []) :=
  processLinks_f_eq lib base domain depth maxDepth node (c, [])

/-! ## The product index under `processLinks` -/

theorem productURLs_appendProduct_same (c : Crawler) (d L : GoString) :
    productURLs (appendProduct c d L) d = productURLs c d ++ [L] := by
  simp [productURLs, appendProduct, indexWrite, indexRead, mapSet]

theorem productURLs_appendProduct_other (c : Crawler) (d L d' : GoString) (h : d' ≠ d) :
    (appendProduct c d L).ProductURLs d' = c.ProductURLs d' := by
  simp [appendProduct, indexWrite, indexRead, mapSet, h]

theorem appendProducts_nil (c : Crawler) (d : GoString) : appendProducts c d [] = c := rfl

theorem appendProducts_cons (c : Crawler) (d L : GoString) (Ls : List GoString) :
    appendProducts c d (L :: Ls) = appendProducts (appendProduct c d L) d Ls := rfl

theorem appendProducts_frame (d : GoString) : ∀ (Ls : List GoString) (c : Crawler),
    productURLs (appendProducts c d Ls) d = productURLs c d ++ Ls ∧
    (∀ d', d' ≠ d → (appendProducts c d Ls).ProductURLs d' = c.ProductURLs d') ∧
    (appendProducts c d Ls).Visited = c.Visited ∧
    (appendProducts c d Ls).Patterns = c.Patterns ∧
    (∀ d', (c.ProductURLs d').isSome → ((appendProducts c d Ls).ProductURLs d').isSome) := by
  intro Ls
  induction Ls with
  | nil => intro c; simp [appendProducts_nil]
  | cons L Ls ih =>
    intro c
    obtain ⟨h1, h2, h3, h4, h5⟩ := ih (appendProduct c d L)
    rw [appendProducts_cons]
    refine ⟨?_, ?_, ?_, ?_, ?_⟩
    · rw [h1, productURLs_appendProduct_same]; simp
    · intro d' hd'; rw [h2 d' hd', productURLs_appendProduct_other c d L d' hd']
    · rw [h3]; rfl
    · rw [h4]; rfl
    · intro d' hd'
      apply h5
      by_cases hdd : d' = d
      · subst hdd; simp [appendProduct, indexWrite, indexRead, mapSet]
      · rw [productURLs_appendProduct_other c d L d' hdd]; exact hd'

theorem route_closed (lib : Imports) (base domain : GoString) (depth maxDepth : Int) :
    ∀ (links : List GoString) (st : LinkState),
      route lib base domain depth maxDepth links st =
        (appendProducts st.1 domain
            ((links.map (resolveURL lib base)).filter fun L => isProductURL st.1 L),
          st.2 ++ ((links.map (resolveURL lib base)).filter fun L =>
              !isProductURL st.1 L && Contains L domain).map
            fun L => ⟨L, domain, depth + 1, maxDepth⟩) := by
  intro links
  induction links with
  | nil => intro st; simp [route_nil, appendProducts_nil]
  | cons l ls ih =>
    intro st
    rw [route_cons, ih]
    simp only [processLinks.link, List.map_cons]
    by_cases hp : isProductURL st.1 (resolveURL lib base l) = true
    · have hpat : ∀ L, isProductURL (appendProduct st.1 domain (resolveURL lib base l)) L =
          isProductURL st.1 L := fun _ => rfl
      simp only [hp, if_true, hpat, List.filter_cons, Bool.not_true, Bool.false_and,
        appendProducts_cons]
      simp
    · have hp' : isProductURL st.1 (resolveURL lib base l) = false := by simpa using hp
      by_cases hc : Contains (resolveURL lib base l) domain = true
      · simp [hp', hc, List.filter_cons]
      · have hc' : Contains (resolveURL lib base l) domain = false := by simpa using hc
        simp [hp', hc', List.filter_cons]

theorem processLinks_closed (lib : Imports) (c : Crawler) (node : Node)
    (base domain : GoString) (depth maxDepth : Int) :
    processLinks lib c node base domain depth maxDepth =
      (appendProducts c domain
          (((hrefs node).map (resolveURL lib base)).filter fun L => isProductURL c L),
        (((hrefs node).map (resolveURL lib base)).filter fun L =>
            !isProductURL c L && Contains L domain).map
          fun L => ⟨L, domain, depth + 1, maxDepth⟩) := by
  rw [processLinks_eq_route, route_closed]; simp

/-! ## Facts about one `Crawl` invocation -/

theorem fetchWithRetry_loop_effects (net : Network) (urlStr : GoString) (retries : Int) :
    ∀ (n i : Nat) (e : Effect), e ∈ (fetchWithRetry.loop net urlStr retries n i).1 →
      e = .request urlStr ∨ e = .sleep 2 := by
  intro n
  induction n with
  | zero => intro i e h; simp [fetchWithRetry.loop] at h
  | succ n ih =>
    intro i e h
    simp only [fetchWithRetry.loop] at h
    split at h
    · split at h
      · simp at h; exact Or.inl h
      · simp only [List.mem_cons] at h
        rcases h with h | h | h
        · exact Or.inl h
        · exact Or.inr h
        · exact ih _ _ h
    · simp only [List.mem_cons] at h
      rcases h with h | h | h
      · exact Or.inl h
      · exact Or.inr h
      · exact ih _ _ h

theorem fetchWithRetry_loop_request (net : Network) (urlStr : GoString) (retries : Int)
    (n i : Nat) : Effect.request urlStr ∈ (fetchWithRetry.loop net urlStr retries (n + 1) i).1 := by
  simp only [fetchWithRetry.loop]
  split
  · split <;> simp
  · simp

/-- What one `Crawl` invocation does to `Visited` and which effects it has. -/
theorem crawl_cases (lib : Imports) (net : Network) (c : Crawler) (t : Task) :
    (t.depth > t.maxDepth ∨ visited c t.urlStr = true →
      (Crawl lib net c t).crawler = c ∧ (Crawl lib net c t).effects = [] ∧
        (Crawl lib net c t).spawned = []) ∧
    (t.depth ≤ t.maxDepth → visited c t.urlStr = false →
      (Crawl lib net c t).effects = (fetchWithRetry net t.urlStr 3).1 ∧
      (Crawl lib net c t).crawler.Visited = mapSet c.Visited t.urlStr true) := by
  constructor
  · intro h
    unfold Crawl
    rcases h with h | h
    · simp [h]
    · by_cases hd : t.depth > t.maxDepth
      · simp [hd]
      · simp [hd, h]
  · intro hd hv
    have hd' : ¬ t.depth > t.maxDepth := not_lt.2 hd
    unfold Crawl
    simp only [hd', hv, if_false, Bool.false_eq_true]
    split
    · exact ⟨rfl, rfl⟩
    · split
      · exact ⟨rfl, rfl⟩
      · split
        · exact ⟨rfl, rfl⟩
        · refine ⟨rfl, ?_⟩
          rw [processLinks_closed]
          exact (appendProducts_frame _ _ _).2.2.1

theorem crawl_effects_mem (lib : Imports) (net : Network) (c : Crawler) (t : Task)
    (e : Effect) (h : e ∈ (Crawl lib net c t).effects) :
    e = .request t.urlStr ∨ e = .sleep 2 := by
  by_cases hd : t.depth > t.maxDepth
  · rw [((crawl_cases lib net c t).1 (Or.inl hd)).2.1] at h; simp at h
  · by_cases hv : visited c t.urlStr = true
    · rw [((crawl_cases lib net c t).1 (Or.inr hv)).2.1] at h; simp at h
    · have hv' : visited c t.urlStr = false := by simpa using hv
      rw [((crawl_cases lib net c t).2 (not_lt.1 hd) hv').1] at h
      exact fetchWithRetry_loop_effects net t.urlStr 3 _ _ e h

theorem crawl_visited (lib : Imports) (net : Network) (c : Crawler) (t : Task)
    (u : GoString) :
    visited (Crawl lib net c t).crawler u =
      (visited c u || (decide (t.depth ≤ t.maxDepth) && decide (u = t.urlStr))) := by
  by_cases hd : t.depth > t.maxDepth
  · rw [((crawl_cases lib net c t).1 (Or.inl hd)).1]
    simp [not_le.2 hd]
  · by_cases hv : visited c t.urlStr = true
    · rw [((crawl_cases lib net c t).1 (Or.inr hv)).1]
      by_cases hu : u = t.urlStr
      · subst hu; simp [hv]
      · simp [hu]
    · have hv' : visited c t.urlStr = false := by simpa using hv
      have hV := ((crawl_cases lib net c t).2 (not_lt.1 hd) hv').2
      simp only [visited, hV, mapSet]
      by_cases hu : u = t.urlStr
      · simp [hu, not_lt.1 hd]
      · simp [hu]

/-! ## C1: deduplication -/

theorem crawlAll_claimed (lib : Imports) (u : GoString) :
    ∀ (invs : List (Task × Network)) (c : Crawler), visited c u = true →
      ∀ (j : Nat) (t : Task) (net : Network) (eff : List Effect),
        invs[j]? = some (t, net) → (crawlAll lib c invs)[j]? = some eff →
        Effect.request u ∉ eff ∧ (t.urlStr = u → eff = []) := by
  intro invs
  induction invs with
  | nil => intro c _ j t net eff h; simp at h
  | cons inv rest ih =>
    intro c hv j t net eff hinv heff
    obtain ⟨t0, net0⟩ := inv
    cases j with
    | zero =>
      simp only [List.getElem?_cons_zero, Option.some.injEq, Prod.mk.injEq] at hinv
      obtain ⟨rfl, rfl⟩ := hinv
      simp only [crawlAll, List.getElem?_cons_zero, Option.some.injEq] at heff
      subst heff
      by_cases hu : t0.urlStr = u
      · have := ((crawl_cases lib net0 c t0).1 (Or.inr (hu ▸ hv))).2.1
        simp [this]
      · refine ⟨fun hmem => ?_, fun h => absurd h hu⟩
        rcases crawl_effects_mem lib net0 c t0 _ hmem with h | h
        · exact hu (by injection h with h; exact h.symm)
        · cases h
    | succ j =>
      simp only [List.getElem?_cons_succ] at hinv
      simp only [crawlAll, List.getElem?_cons_succ] at heff
      refine ih (Crawl lib net0 c t0).crawler ?_ j t net eff hinv heff
      rw [crawl_visited]; simp [hv]

/-- C1. Take any crawler on which `u` is not yet claimed (in particular one
fresh from `NewCrawler`) and any sequence of `Crawl` invocations with
`depth <= maxDepth`, in the order of their test-and-set on `Visited`, at least
one of them with `url = u`.  Then exactly one invocation, the first one with
`url = u`, wins the claim and requests `u`; every other invocation with
`url = u` has no effect at all (no request), and no other invocation requests
`u`. -/
theorem crawl_dedup (lib : Imports) (u : GoString) :
    ∀ (invs : List (Task × Network)) (c : Crawler),
      (∀ inv ∈ invs, inv.1.depth ≤ inv.1.maxDepth) →
      visited c u = false →
      (∃ inv ∈ invs, inv.1.urlStr = u) →
      ∃ (k : Nat) (t : Task) (net : Network) (eff : List Effect),
        invs[k]? = some (t, net) ∧ t.urlStr = u ∧
        (∀ (i : Nat) (t' : Task) (net' : Network),
          i < k → invs[i]? = some (t', net') → t'.urlStr ≠ u) ∧
        (crawlAll lib c invs)[k]? = some eff ∧ Effect.request u ∈ eff ∧
        ∀ (j : Nat) (t' : Task) (net' : Network) (eff' : List Effect), j ≠ k →
          invs[j]? = some (t', net') → (crawlAll lib c invs)[j]? = some eff' →
          Effect.request u ∉ eff' ∧ (t'.urlStr = u → eff' = []) := by
  intro invs
  induction invs with
  | nil =>
    intro c _ _ h
    obtain ⟨inv, hmem, _⟩ := h
    exact absurd hmem (List.not_mem_nil _)
  | cons inv rest ih =>
    intro c hdepth hfresh hocc
    obtain ⟨t0, net0⟩ := inv
    have hd0 : t0.depth ≤ t0.maxDepth := hdepth (t0, net0) (by simp)
    by_cases hu : t0.urlStr = u
    · -- the head wins
      have hv0 : visited c t0.urlStr = false := hu ▸ hfresh
      have heff := ((crawl_cases lib net0 c t0).2 hd0 hv0).1
      refine ⟨0, t0, net0, (Crawl lib net0 c t0).effects, by simp, hu, ?_, by simp [crawlAll],
        ?_, ?_⟩
      · intro i _ _ hi; omega
      · rw [heff, ← hu]
        exact fetchWithRetry_loop_request net0 t0.urlStr 3 2 0
      · intro j t' net' eff' hj hinv heff'
        obtain ⟨j, rfl⟩ : ∃ m, j = m + 1 := ⟨j - 1, by omega⟩
        simp only [List.getElem?_cons_succ] at hinv
        simp only [crawlAll, List.getElem?_cons_succ] at heff'
        refine crawlAll_claimed lib u rest (Crawl lib net0 c t0).crawler ?_ j t' net' eff'
          hinv heff'
        rw [crawl_visited]; simp [hd0, hu]
    · -- the head is about another URL
      have hfresh' : visited (Crawl lib net0 c t0).crawler u = false := by
        rw [crawl_visited]; simp [hfresh, Ne.symm hu]
      have hocc' : ∃ inv ∈ rest, inv.1.urlStr = u := by
        obtain ⟨inv, hmem, hinv⟩ := hocc
        rcases List.mem_cons.1 hmem with h | h
        · subst h; exact absurd hinv hu
        · exact ⟨inv, h, hinv⟩
      obtain ⟨k, t, net, eff, hk, htu, hfirst, heffk, hreq, hothers⟩ :=
        ih (Crawl lib net0 c t0).crawler
          (fun inv hmem => hdepth inv (List.mem_cons_of_mem _ hmem)) hfresh' hocc'
      refine ⟨k + 1, t, net, eff, by simpa using hk, htu, ?_, by simpa [crawlAll] using heffk,
        hreq, ?_⟩
      · intro i t' net' hi hinv
        cases i with
        | zero =>
          simp only [List.getElem?_cons_zero, Option.some.injEq, Prod.mk.injEq] at hinv
          obtain ⟨rfl, rfl⟩ := hinv
          exact hu
        | succ i =>
          simp only [List.getElem?_cons_succ] at hinv
          exact hfirst i t' net' (by omega) hinv
      · intro j t' net' eff' hj hinv heff'
        cases j with
        | zero =>
          simp only [List.getElem?_cons_zero, Option.some.injEq, Prod.mk.injEq] at hinv
          obtain ⟨rfl, rfl⟩ := hinv
          simp only [crawlAll, List.getElem?_cons_zero, Option.some.injEq] at heff'
          subst heff'
          refine ⟨fun hmem => ?_, fun h => absurd h hu⟩
          rcases crawl_effects_mem lib net0 c t0 _ hmem with h | h
          · exact hu (by injection h with h; exact h.symm)
          · cases h
        | succ j =>
          simp only [List.getElem?_cons_succ] at hinv
          simp only [crawlAll, List.getElem?_cons_succ] at heff'
          exact hothers j t' net' eff' (by omega) hinv heff'

/-! ## C4: the depth bound -/

theorem crawl_spawned_depth (lib : Imports) (net : Network) (c : Crawler) (t : Task) :
    ∀ t' ∈ (Crawl lib net c t).spawned,
      t'.depth = t.depth + 1 ∧ t'.maxDepth = t.maxDepth ∧ t'.domain = t.domain := by
  intro t' h
  unfold Crawl at h
  split at h
  · simp at h
  · split at h
    · simp at h
    · dsimp only at h
      split at h
      · simp at h
      · split at h
        · simp at h
        · split at h
          · simp at h
          · rw [processLinks_closed] at h
            simp only [List.mem_map] at h
            obtain ⟨L, _, rfl⟩ := h
            exact ⟨rfl, rfl, rfl⟩

theorem crawl_effects_depth (lib : Imports) (net : Network) (c : Crawler) (t : Task) :
    (Crawl lib net c t).effects ≠ [] → t.depth ≤ t.maxDepth := by
  intro h
  by_contra hd
  exact h ((crawl_cases lib net c t).1 (Or.inl (not_le.1 hd))).2.1

/-- The invariant of a run with `maxDepth = N` started at depth 0: pending
tasks have a depth that is not negative and carry `maxDepth = N`, and so did
every executed task, whose recorded effects are those of its `Crawl`. -/
theorem run_invariant (lib : Imports) (N : Int) :
    ∀ (schedule : List Choice) (s : RunState),
      (∀ t ∈ s.pending, 0 ≤ t.depth ∧ t.maxDepth = N) →
      (∀ p ∈ s.trace, 0 ≤ p.1.depth ∧ p.1.maxDepth = N ∧
        ∃ net c, p.2 = (Crawl lib net c p.1).effects) →
      ∀ p ∈ (RunState.run lib s schedule).trace, 0 ≤ p.1.depth ∧ p.1.maxDepth = N ∧
        ∃ net c, p.2 = (Crawl lib net c p.1).effects := by
  intro schedule
  induction schedule with
  | nil => intro s _ htrace; exact htrace
  | cons ch rest ih =>
    intro s hpend htrace
    show ∀ p ∈ (RunState.run lib (RunState.step lib s ch) rest).trace, _
    apply ih
    · intro t ht
      unfold RunState.step at ht
      split at ht
      · exact hpend t ht
      · rename_i t0 hget
        have ht0 := hpend t0 (List.getElem?_mem hget)
        rcases List.mem_append.1 ht with h | h
        · exact hpend t (List.mem_of_mem_eraseIdx h)
        · obtain ⟨h1, h2, _⟩ := crawl_spawned_depth lib ch.net s.crawler t0 t h
          exact ⟨by rw [h1]; have := ht0.1; omega, by rw [h2]; exact ht0.2⟩
    · intro p hp
      unfold RunState.step at hp
      split at hp
      · exact htrace p hp
      · rename_i t0 hget
        have ht0 := hpend t0 (List.getElem?_mem hget)
        rcases List.mem_append.1 hp with h | h
        · exact htrace p h
        · simp only [List.mem_singleton] at h
          subst h
          exact ⟨ht0.1, ht0.2, ch.net, s.crawler, rfl⟩

/-- In a run started at depth 0 the depth of every pending task is at most the
number of invocations executed so far: `depth + 1` stays below `2^63` in every
run of fewer than `2^63` invocations, so that Go's `int` addition and the
addition of the embedding agree. -/
theorem run_depth_le_executed (lib : Imports) :
    ∀ (schedule : List Choice) (s : RunState),
      (∀ t ∈ s.pending, t.depth ≤ s.trace.length) →
      (∀ t ∈ (RunState.run lib s schedule).pending,
        t.depth ≤ (RunState.run lib s schedule).trace.length) ∧
      (RunState.run lib s schedule).trace.length ≤ s.trace.length + schedule.length := by
  intro schedule
  induction schedule with
  | nil => intro s h; exact ⟨h, by simp [RunState.run]⟩
  | cons ch rest ih =>
    intro s h
    have hstep : ∀ t ∈ (RunState.step lib s ch).pending,
        t.depth ≤ (RunState.step lib s ch).trace.length := by
      intro t ht
      unfold RunState.step at ht ⊢
      split
      · rename_i hget
        simp only [hget] at ht
        exact h t ht
      · rename_i t0 hget
        simp only [hget] at ht
        have ht0 := h t0 (List.getElem?_mem hget)
        simp only [List.length_append, List.length_singleton, Nat.cast_add, Nat.cast_one]
        rcases List.mem_append.1 ht with h1 | h1
        · have := h t (List.mem_of_mem_eraseIdx h1); omega
        · have := (crawl_spawned_depth lib ch.net s.crawler t0 t h1).1; omega
    have hlen : (RunState.step lib s ch).trace.length ≤ s.trace.length + 1 := by
      unfold RunState.step
      split
      · omega
      · simp
    obtain ⟨h1, h2⟩ := ih (RunState.step lib s ch) hstep
    refine ⟨h1, ?_⟩
    show (RunState.run lib (RunState.step lib s ch) rest).trace.length ≤ _
    simp only [List.length_cons]
    omega

/-- C4. A `Crawl` invocation with `depth > maxDepth` returns at once: no
effect (no request), no spawned task, `Visited` and the product index
unchanged.  In every run with `maxDepth = N` started from tasks at depth 0,
under every schedule and network, an executed task of depth above `N` has no
effect, and every task that issued a request has `0 <= depth <= N`. -/
theorem crawl_depth_bound (lib : Imports) (N : Int) :
    (∀ (net : Network) (c : Crawler) (t : Task), t.depth > t.maxDepth →
      (Crawl lib net c t).crawler = c ∧ (Crawl lib net c t).effects = [] ∧
        (Crawl lib net c t).spawned = []) ∧
    (∀ (c : Crawler) (seeds : List (GoString × GoString)) (schedule : List Choice),
      ∀ p ∈ (RunState.run lib (RunState.start c seeds N) schedule).trace,
        (p.1.depth > N → p.2 = []) ∧
        ((∃ u, Effect.request u ∈ p.2) → 0 ≤ p.1.depth ∧ p.1.depth ≤ N)) := by
  refine ⟨fun net c t h => (crawl_cases lib net c t).1 (Or.inl h), ?_⟩
  intro c seeds schedule p hp
  obtain ⟨h0, hN, net, c', heff⟩ := run_invariant lib N schedule (RunState.start c seeds N)
    (by
      intro t ht
      simp only [RunState.start, List.mem_map] at ht
      obtain ⟨seed, _, rfl⟩ := ht
      exact ⟨le_refl _, rfl⟩)
    (by intro p hp; simp [RunState.start] at hp) p hp
  refine ⟨fun hd => ?_, fun hreq => ?_⟩
  · rw [heff]
    exact ((crawl_cases lib net c' p.1).1 (Or.inl (by rw [hN]; exact hd))).2.1
  · obtain ⟨u, hu⟩ := hreq
    refine ⟨h0, ?_⟩
    rw [← hN]
    apply crawl_effects_depth lib net c' p.1
    rw [← heff]
    exact List.ne_nil_of_mem hu

/-! ## C10: the product index and line 128 -/

/-- Line 128 executed without interruption between its read and its write:
the list of the domain gets the link as its last element, nothing else
changes. -/
theorem appendProduct_uninterrupted (c : Crawler) (d L : GoString) :
    (appendProduct c d L).ProductURLs d = some ((c.ProductURLs d).getD [] ++ [L]) ∧
    (∀ d', d' ≠ d → (appendProduct c d L).ProductURLs d' = c.ProductURLs d') ∧
    (∀ d', productURLs c d' <+: productURLs (appendProduct c d L) d') := by
  refine ⟨by simp [appendProduct, indexWrite, indexRead, mapSet, productURLs],
    fun d' h => productURLs_appendProduct_other c d L d' h, ?_⟩
  intro d'
  by_cases h : d' = d
  · subst h; rw [productURLs_appendProduct_same]; exact List.prefix_append _ _
  · simp only [productURLs, productURLs_appendProduct_other c d L d' h]
    exact List.prefix_rfl

/-- The effects, the spawned tasks and `Visited` of a `Crawl` invocation do not
depend on the product index the invocation finds. -/
theorem crawl_index_independent (lib : Imports) (net : Network) (c : Crawler) (t : Task)
    (m : GoString → Option (List GoString)) :
    (Crawl lib net { c with ProductURLs := m } t).effects = (Crawl lib net c t).effects ∧
    (Crawl lib net { c with ProductURLs := m } t).spawned = (Crawl lib net c t).spawned ∧
    (Crawl lib net { c with ProductURLs := m } t).crawler.Visited =
      (Crawl lib net c t).crawler.Visited := by
  have hv : visited { c with ProductURLs := m } t.urlStr = visited c t.urlStr := rfl
  unfold Crawl
  rw [hv]
  by_cases hd : t.depth > t.maxDepth
  · simp [hd]
  · by_cases hvis : visited c t.urlStr = true
    · simp [hd, hvis]
    · simp only [hd, hvis, if_false]
      generalize fetchWithRetry net t.urlStr 3 = fetched
      obtain ⟨eff, res⟩ := fetched
      cases res with
      | error e => simp
      | ok resp =>
        by_cases hs : resp.StatusCode = StatusOK
        · cases hp : lib.htmlParse resp.Body with
          | none => simp [hs, hp]
          | some doc =>
            simp only [hs, hp, ne_eq, not_true_eq_false, if_false]
            rw [processLinks_closed, processLinks_closed]
            simp only [Bool.false_eq_true, if_false]
            refine ⟨?_, ?_, ?_⟩
            · trivial
            · rfl
            · rw [(appendProducts_frame _ _ _).2.2.1, (appendProducts_frame _ _ _).2.2.1]
        · simp [hs]

/-- C10 fails on the code. Two goroutines execute line 128 for the links
`https://x.com/product/1` and `https://x.com/product/2` of the domain `x.com`
on a crawler fresh from `NewCrawler`.  When neither is interrupted the index
holds both links.  When both read before either writes, the first write
records `/product/1` and the second write replaces the list by one that holds
`/product/2` only: the recorded entry is removed, and the previous list is not
a prefix of the new one. -/
theorem index_lost_update :
    productURLs
        (race NewCrawler
          [Appender.start "x.com".toList "https://x.com/product/1".toList,
            Appender.start "x.com".toList "https://x.com/product/2".toList]
          [0, 0, 1, 1]).1 "x.com".toList =
      ["https://x.com/product/1".toList, "https://x.com/product/2".toList] ∧
    productURLs
        (race NewCrawler
          [Appender.start "x.com".toList "https://x.com/product/1".toList,
            Appender.start "x.com".toList "https://x.com/product/2".toList]
          [0, 1, 0]).1 "x.com".toList = ["https://x.com/product/1".toList] ∧
    productURLs
        (race NewCrawler
          [Appender.start "x.com".toList "https://x.com/product/1".toList,
            Appender.start "x.com".toList "https://x.com/product/2".toList]
          [0, 1, 0, 1]).1 "x.com".toList = ["https://x.com/product/2".toList] ∧
    ((race NewCrawler
          [Appender.start "x.com".toList "https://x.com/product/1".toList,
            Appender.start "x.com".toList "https://x.com/product/2".toList]
          [0, 1, 0, 1]).2.map fun a => a.done) = [true, true] ∧
    ¬ ["https://x.com/product/1".toList] <+: ["https://x.com/product/2".toList] := by
  decide

/-- Go's `depth+1` is the sum of the embedding for every `int` below
`math.MaxInt64`. -/
theorem intAdd_one_eq (depth : Int) (hlo : -2 ^ 63 ≤ depth) (hhi : depth < 2 ^ 63 - 1) :
    intAdd depth 1 = depth + 1 := by
  unfold intAdd
  have h1 : (0 : Int) ≤ depth + 1 + 2 ^ 63 := by omega
  have h2 : depth + 1 + 2 ^ 63 < 2 ^ 64 := by omega
  rw [Int.emod_eq_of_lt h1 h2]
  omega

section NetURL
open url

/-! ## `net/url` on plain URLs -/

theorem char_le_iff (a b : Char) : a ≤ b ↔ a.toNat ≤ b.toNat := Iff.rfl

theorem plainByte_cases {c : Char} (h : plainByte c = true) :
    isAlnum c = true ∨ c = '-' ∨ c = '.' ∨ c = '_' ∨ c = '~' := by
  simp only [plainByte, Bool.or_eq_true, List.contains_iff_exists_mem_beq] at h
  rcases h with h | ⟨x, hx, hb⟩
  · exact Or.inl h
  · have : c = x := by simpa using hb
    subst this
    simp at hx
    exact Or.inr hx

theorem isAlnum_toNat {c : Char} (h : isAlnum c = true) :
    (97 ≤ c.toNat ∧ c.toNat ≤ 122) ∨ (65 ≤ c.toNat ∧ c.toNat ≤ 90) ∨
      (48 ≤ c.toNat ∧ c.toNat ≤ 57) := by
  simp only [isAlnum, Bool.or_eq_true, Bool.and_eq_true, decide_eq_true_eq, char_le_iff] at h
  have e1 : ('a' : Char).toNat = 97 := rfl
  have e2 : ('z' : Char).toNat = 122 := rfl
  have e3 : ('A' : Char).toNat = 65 := rfl
  have e4 : ('Z' : Char).toNat = 90 := rfl
  have e5 : ('0' : Char).toNat = 48 := rfl
  have e6 : ('9' : Char).toNat = 57 := rfl
  omega

theorem plainByte_toNat {c : Char} (h : plainByte c = true) :
    (97 ≤ c.toNat ∧ c.toNat ≤ 122) ∨ (65 ≤ c.toNat ∧ c.toNat ≤ 90) ∨
      (48 ≤ c.toNat ∧ c.toNat ≤ 57) ∨ c.toNat = 45 ∨ c.toNat = 46 ∨ c.toNat = 95 ∨
      c.toNat = 126 := by
  rcases plainByte_cases h with h | rfl | rfl | rfl | rfl
  · have := isAlnum_toNat h; omega
  all_goals decide

/-- A plain byte is none of the bytes with a meaning in a URL.  -/
theorem plainByte_ne {c : Char} (h : plainByte c = true) (x : Char)
    (hx : x.toNat < 45 ∨ x.toNat = 47 ∨ (58 ≤ x.toNat ∧ x.toNat ≤ 64) ∨
      (91 ≤ x.toNat ∧ x.toNat ≤ 94) ∨ x.toNat = 96 ∨ (123 ≤ x.toNat ∧ x.toNat ≤ 125) ∨
      127 ≤ x.toNat) : c ≠ x := by
  rintro rfl
  have := plainByte_toNat h
  omega

theorem plainByte_shouldEscape {c : Char} (h : plainByte c = true) (mode : encoding) :
    shouldEscape c mode = false := by
  rcases plainByte_cases h with h | rfl | rfl | rfl | rfl
  · simp [shouldEscape, h]
  all_goals cases mode <;> decide

theorem cut_not_mem (sep : Char) : ∀ s : GoString, sep ∉ s → cut sep s = (s, [], false) := by
  intro s
  induction s with
  | nil => intro _; rfl
  | cons c s ih =>
    intro h
    have hc : c ≠ sep := fun e => h (by simp [e])
    have hs := ih (fun hm => h (by simp [hm]))
    simp [cut, hc, hs]

theorem cut_append (sep : Char) (b : GoString) : ∀ a : GoString, sep ∉ a →
    cut sep (a ++ sep :: b) = (a, b, true) := by
  intro a
  induction a with
  | nil => intro _; simp [cut]
  | cons c a ih =>
    intro h
    have hc : c ≠ sep := fun e => h (by simp [e])
    have hs := ih (fun hm => h (by simp [hm]))
    simp [cut, hc, hs]

theorem cut_fst_subset (sep : Char) : ∀ (s : GoString) (x : Char), x ∈ (cut sep s).1 → x ∈ s := by
  intro s
  induction s with
  | nil => intro x h; simp [cut] at h
  | cons c s ih =>
    intro x h
    by_cases hc : c = sep
    · simp [cut, hc] at h
    · simp only [cut, hc, if_false, List.mem_cons] at h
      rcases h with h | h
      · simp [h]
      · simp [ih x h]

theorem cutLast_not_mem (sep : Char) : ∀ s : GoString, sep ∉ s → cutLast sep s = none := by
  intro s
  induction s with
  | nil => intro _; rfl
  | cons c s ih =>
    intro h
    have hc : c ≠ sep := fun e => h (by simp [e])
    have hs := ih (fun hm => h (by simp [hm]))
    simp [cutLast, hc, hs]

theorem getScheme_loop_no_colon (rawURL : GoString) : ∀ (s seen : GoString), ':' ∉ s →
    getScheme.loop rawURL seen s = some ([], rawURL) := by
  intro s
  induction s with
  | nil => intro seen _; rfl
  | cons c s ih =>
    intro seen h
    have hc : c ≠ ':' := fun e => h (by simp [e])
    have hs := fun seen' => ih seen' (fun hm => h (by simp [hm]))
    simp only [getScheme.loop, hs, hc, if_false]
    split
    · rfl
    · split
      · split <;> rfl
      · rfl

theorem getScheme_loop_lower (rawURL rest : GoString) : ∀ (sch seen : GoString),
    (∀ c ∈ sch, 'a' ≤ c ∧ c ≤ 'z') → seen ++ sch ≠ [] →
    getScheme.loop rawURL seen (sch ++ ':' :: rest) = some (seen ++ sch, rest) := by
  intro sch
  induction sch with
  | nil =>
    intro seen _ hne
    have hne' : seen ≠ [] := by simpa using hne
    simp [getScheme.loop, hne', char_le_iff]
  | cons c sch ih =>
    intro seen h _
    have hc := h c (by simp)
    have hs := ih (seen ++ [c]) (fun x hx => h x (by simp [hx])) (by simp)
    simp only [List.cons_append, getScheme.loop, hc.1, hc.2, decide_True, Bool.and_self,
      Bool.true_or, if_true]
    exact hs.trans (by simp)

theorem unescape_id (mode : encoding) : ∀ s : GoString,
    (∀ c ∈ s, c ≠ '%' ∧ c ≠ '+' ∧ shouldEscape c mode = false) →
    unescape mode s = some s := by
  intro s
  induction s with
  | nil => intro _; rfl
  | cons c s ih =>
    intro h
    have hc := h c (by simp)
    have hs := ih (fun x hx => h x (by simp [hx]))
    rw [unescape]
    · simp [hs, hc.2.2]
    · intro a b rest e; exact absurd e hc.1
    · intro e; exact absurd e hc.1
    · intro e; exact absurd e hc.2.1

theorem escape_id (mode : encoding) : ∀ s : GoString,
    (∀ c ∈ s, shouldEscape c mode = false) → escape mode s = s := by
  intro s
  induction s with
  | nil => intro _; rfl
  | cons c s ih =>
    intro h
    simp [escape, h c (by simp), ih (fun x hx => h x (by simp [hx]))]

/-- The bytes of a plain path: unreserved bytes and `/`. -/
theorem pathByte_facts {c : Char} (h : plainByte c = true ∨ c = '/') :
    c ≠ '%' ∧ c ≠ '+' ∧ c ≠ '#' ∧ c ≠ '?' ∧ c ≠ ':' ∧ c ≠ '@' ∧ c ≠ '*' ∧ c ≠ '[' ∧
      ¬ c.toNat < 0x20 ∧ c.toNat ≠ 0x7f ∧ shouldEscape c .encodePath = false := by
  rcases h with h | rfl
  · have := plainByte_toNat h
    refine ⟨plainByte_ne h _ (by decide), plainByte_ne h _ (by decide),
      plainByte_ne h _ (by decide), plainByte_ne h _ (by decide), plainByte_ne h _ (by decide),
      plainByte_ne h _ (by decide), plainByte_ne h _ (by decide), plainByte_ne h _ (by decide),
      by omega, by omega, plainByte_shouldEscape h _⟩
  · decide

theorem lower_plainByte {c : Char} (h : 'a' ≤ c ∧ c ≤ 'z') : plainByte c = true := by
  simp [plainByte, isAlnum, h.1, h.2]

theorem toLower_lower {c : Char} (h : 'a' ≤ c ∧ c ≤ 'z') : c.toLower = c := by
  have h1 := (char_le_iff _ _).1 h.1
  have e1 : ('a' : Char).toNat = 97 := rfl
  unfold Char.toLower
  have hcond : ¬ (c.toNat ≥ 65 ∧ c.toNat ≤ 90) := by omega
  simp only [hcond, if_false]

theorem map_toLower_lower : ∀ s : GoString, (∀ c ∈ s, 'a' ≤ c ∧ c ≤ 'z') →
    s.map Char.toLower = s := by
  intro s
  induction s with
  | nil => intro _; rfl
  | cons c s ih =>
    intro h
    simp [toLower_lower (h c (by simp)), ih (fun x hx => h x (by simp [hx]))]

theorem stringContainsCTLByte_false (s : GoString)
    (h : ∀ c ∈ s, ¬ c.toNat < 0x20 ∧ c.toNat ≠ 0x7f) : stringContainsCTLByte s = false := by
  simp only [stringContainsCTLByte, List.any_eq_false, Bool.or_eq_true, decide_eq_true_eq,
    not_or]
  exact h

theorem unescape_path (p : GoString) (h : ∀ c ∈ p, plainByte c = true ∨ c = '/') :
    unescape .encodePath p = some p :=
  unescape_id _ p fun c hc =>
    ⟨(pathByte_facts (h c hc)).1, (pathByte_facts (h c hc)).2.1,
      (pathByte_facts (h c hc)).2.2.2.2.2.2.2.2.2.2⟩

theorem escape_path (p : GoString) (h : ∀ c ∈ p, plainByte c = true ∨ c = '/') :
    escape .encodePath p = p :=
  escape_id _ p fun c hc => (pathByte_facts (h c hc)).2.2.2.2.2.2.2.2.2.2

theorem setPath_plain (u : URL) (p : GoString) (h : ∀ c ∈ p, plainByte c = true ∨ c = '/') :
    URL.setPath u p = some { u with Path := p, RawPath := [] } := by
  simp [URL.setPath, unescape_path p h, escape_path p h]

theorem escapedPath_plain (u : URL) (h : ∀ c ∈ u.Path, plainByte c = true ∨ c = '/')
    (hraw : u.RawPath = []) : URL.EscapedPath u = u.Path := by
  have hstar : u.Path ≠ ['*'] := by
    intro e
    have := (pathByte_facts (h '*' (by rw [e]; decide))).2.2.2.2.2.2.1
    exact this rfl
  simp [URL.EscapedPath, hraw, hstar, escape_path u.Path h]

/-- `url.Parse` on a plain path reference. -/
theorem parse_path (p : GoString) (h : ∀ c ∈ p, plainByte c = true ∨ c = '/')
    (hnn : "//".toList.isPrefixOf p = false) : Parse p = some { Path := p } := by
  have hf := fun c hc => pathByte_facts (h c hc)
  have hhash : '#' ∉ p := fun hm => (hf _ hm).2.2.1 rfl
  have hq : '?' ∉ p := fun hm => (hf _ hm).2.2.2.1 rfl
  have hcolon : ':' ∉ p := fun hm => (hf _ hm).2.2.2.2.1 rfl
  have hstar : p ≠ "*".toList := by
    intro e
    exact (hf '*' (by rw [e]; decide)).2.2.2.2.2.2.1 rfl
  have hctl : stringContainsCTLByte p = false :=
    stringContainsCTLByte_false p fun c hc => ⟨(hf c hc).2.2.2.2.2.2.2.2.1, (hf c hc).2.2.2.2.2.2.2.2.2.1⟩
  have hsch : getScheme p = some ([], p) := getScheme_loop_no_colon p p [] hcolon
  have hlast : ¬ p.getLast? = some '?' := fun e => hq (List.mem_of_getLast?_eq_some e)
  have hseg : ':' ∉ (cut '/' p).1 := fun hm => hcolon (cut_fst_subset '/' p _ hm)
  have hnn' : ¬ ['/', '/'] <+: p := by
    intro hp
    have : "//".toList.isPrefixOf p = true := List.isPrefixOf_iff_prefix.2 hp
    rw [hnn] at this
    exact Bool.false_ne_true this
  simp only [Parse, cut_not_mem '#' p hhash, parse, hctl, hstar, hsch, hlast,
    cut_not_mem '?' p hq]
  simp [hseg, hnn', setPath_plain _ p h]

theorem parseHost_plain (host : GoString) (h : ∀ c ∈ host, plainByte c = true) :
    parseHost host = some host := by
  have hun : unescape .encodeHost host = some host :=
    unescape_id _ host fun c hc =>
      ⟨plainByte_ne (h c hc) _ (by decide), plainByte_ne (h c hc) _ (by decide),
        plainByte_shouldEscape (h c hc) _⟩
  have hcolon : cutLast ':' host = none :=
    cutLast_not_mem _ _ fun hm => plainByte_ne (h _ hm) _ (by decide) rfl
  unfold parseHost
  split
  · rename_i t
    exact absurd rfl (plainByte_ne (h '[' (by simp)) '[' (by decide))
  · simp [hcolon, hun]

theorem parseAuthority_plain (host : GoString) (h : ∀ c ∈ host, plainByte c = true) :
    parseAuthority host = some (none, host) := by
  have hat : cutLast '@' host = none :=
    cutLast_not_mem _ _ fun hm => plainByte_ne (h _ hm) _ (by decide) rfl
  simp [parseAuthority, hat, parseHost_plain host h]

/-- `url.Parse` on a plain absolute URL `scheme://host` followed by an empty
path or a plain path that starts with `/`. -/
theorem parse_base (scheme host bpath : GoString)
    (hscheme : scheme ≠ [] ∧ ∀ c ∈ scheme, 'a' ≤ c ∧ c ≤ 'z')
    (hhost : ∀ c ∈ host, plainByte c = true)
    (hpath : ∀ c ∈ bpath, plainByte c = true ∨ c = '/')
    (hhead : bpath = [] ∨ ∃ t, bpath = '/' :: t) :
    Parse (scheme ++ "://".toList ++ host ++ bpath) =
      some { Scheme := scheme, Host := host, Path := bpath } := by
  have hraw : scheme ++ "://".toList ++ host ++ bpath =
      scheme ++ ':' :: ('/' :: '/' :: (host ++ bpath)) := by simp
  have hbyte : ∀ c ∈ scheme ++ ':' :: ('/' :: '/' :: (host ++ bpath)),
      (plainByte c = true ∨ c = '/') ∨ c = ':' := by
    intro c hc
    simp only [List.mem_append, List.mem_cons] at hc
    rcases hc with hc | rfl | rfl | rfl | hc | hc
    · exact Or.inl (Or.inl (lower_plainByte (hscheme.2 c hc)))
    · exact Or.inr rfl
    · exact Or.inl (Or.inr rfl)
    · exact Or.inl (Or.inr rfl)
    · exact Or.inl (Or.inl (hhost c hc))
    · exact Or.inl (hpath c hc)
  have hfacts : ∀ c ∈ scheme ++ ':' :: ('/' :: '/' :: (host ++ bpath)),
      c ≠ '#' ∧ c ≠ '?' ∧ c ≠ '*' ∧ ¬ c.toNat < 0x20 ∧ c.toNat ≠ 0x7f := by
    intro c hc
    rcases hbyte c hc with h | rfl
    · have := pathByte_facts h
      exact ⟨this.2.2.1, this.2.2.2.1, this.2.2.2.2.2.2.1, this.2.2.2.2.2.2.2.2.1,
        this.2.2.2.2.2.2.2.2.2.1⟩
    · decide
  rw [hraw]
  have hhash : '#' ∉ scheme ++ ':' :: ('/' :: '/' :: (host ++ bpath)) :=
    fun hm => (hfacts _ hm).1 rfl
  have hctl : stringContainsCTLByte (scheme ++ ':' :: ('/' :: '/' :: (host ++ bpath))) = false :=
    stringContainsCTLByte_false _ fun c hc => ⟨(hfacts c hc).2.2.2.1, (hfacts c hc).2.2.2.2⟩
  have hstar : scheme ++ ':' :: ('/' :: '/' :: (host ++ bpath)) ≠ "*".toList := by
    intro e
    have hlen := congrArg List.length e
    simp at hlen
    omega
  have hsch : getScheme (scheme ++ ':' :: ('/' :: '/' :: (host ++ bpath))) =
      some (scheme, '/' :: '/' :: (host ++ bpath)) := by
    have := getScheme_loop_lower (scheme ++ ':' :: ('/' :: '/' :: (host ++ bpath)))
      ('/' :: '/' :: (host ++ bpath)) scheme [] hscheme.2 (by simpa using hscheme.1)
    simpa [getScheme] using this
  have hq : '?' ∉ '/' :: '/' :: (host ++ bpath) := by
    intro hm
    exact (hfacts '?' (List.mem_append_right _ (List.mem_cons_of_mem _ hm))).2.1 rfl
  have hlast : ¬ ('/' :: '/' :: (host ++ bpath)).getLast? = some '?' :=
    fun e => hq (List.mem_of_getLast?_eq_some e)
  have hslash : '/' ∉ host := fun hm => plainByte_ne (hhost _ hm) _ (by decide) rfl
  have hcut : (cut '/' (host ++ bpath)).1 = host ∧
      (if (cut '/' (host ++ bpath)).2.2 = true then '/' :: (cut '/' (host ++ bpath)).2.1
        else []) = bpath := by
    rcases hhead with rfl | ⟨t, rfl⟩
    · simp [cut_not_mem '/' host hslash]
    · simp [cut_append '/' t host hslash]
  simp only [Parse, cut_not_mem '#' _ hhash, parse, hctl, hstar, hsch,
    map_toLower_lower scheme hscheme.2, hlast, cut_not_mem '?' _ hq]
  simp [hscheme.1, hcut.1, hcut.2, parseAuthority_plain host hhost, setPath_plain _ bpath hpath]

theorem plainSegment_iff (s : GoString) :
    plainSegment s = true ↔
      s ≠ [] ∧ (∀ c ∈ s, plainByte c = true) ∧ s ≠ ".".toList ∧ s ≠ "..".toList := by
  simp only [plainSegment, Bool.and_eq_true, Bool.not_eq_true', List.isEmpty_eq_false,
    List.all_eq_true, bne_iff_ne, ne_eq, and_assoc]

theorem plain_no_slash {s : GoString} (h : ∀ c ∈ s, plainByte c = true) : '/' ∉ s :=
  fun hm => plainByte_ne (h _ hm) _ (by decide) rfl

theorem joinPath_nil : joinPath [] = [] := rfl

theorem joinPath_cons (s : GoString) (segs : List GoString) :
    joinPath (s :: segs) = '/' :: (s ++ joinPath segs) := by
  simp [joinPath]

theorem joinPath_bytes (segs : List GoString)
    (h : ∀ s ∈ segs, ∀ c ∈ s, plainByte c = true) :
    ∀ c ∈ joinPath segs, plainByte c = true ∨ c = '/' := by
  induction segs with
  | nil => intro c hc; simp [joinPath] at hc
  | cons s segs ih =>
    intro c hc
    rw [joinPath_cons] at hc
    simp only [List.mem_cons, List.mem_append] at hc
    rcases hc with rfl | hc | hc
    · exact Or.inr rfl
    · exact Or.inl (h s (by simp) c hc)
    · exact ih (fun x hx => h x (by simp [hx])) c hc

theorem elems_no_slash : ∀ s : GoString, '/' ∉ s → elems s = [s] := by
  intro s
  induction s with
  | nil => intro _; rfl
  | cons c s ih =>
    intro h
    have hc : c ≠ '/' := fun e => h (by simp [e])
    simp [elems, hc, ih (fun hm => h (by simp [hm]))]

theorem elems_append (rest : GoString) : ∀ s : GoString, '/' ∉ s →
    elems (s ++ '/' :: rest) = s :: elems rest := by
  intro s
  induction s with
  | nil => intro _; simp [elems]
  | cons c s ih =>
    intro h
    have hc : c ≠ '/' := fun e => h (by simp [e])
    simp [elems, hc, ih (fun hm => h (by simp [hm]))]

theorem elems_tail : ∀ (segs : List GoString) (s : GoString), '/' ∉ s →
    (∀ x ∈ segs, '/' ∉ x) → elems (s ++ joinPath segs) = s :: segs := by
  intro segs
  induction segs with
  | nil => intro s hs _; simp [joinPath_nil, elems_no_slash s hs]
  | cons x xs ih =>
    intro s hs h
    rw [joinPath_cons, elems_append _ s hs, ih x (h x (by simp)) (fun y hy => h y (by simp [hy]))]

theorem elems_joinPath (s : GoString) (segs : List GoString) (h : ∀ x ∈ s :: segs, '/' ∉ x) :
    elems (joinPath (s :: segs)) = [] :: s :: segs := by
  rw [joinPath_cons]
  have := elems_append (s ++ joinPath segs) [] (by simp)
  simp only [List.nil_append] at this
  rw [this, elems_tail segs s (h s (by simp)) (fun y hy => h y (by simp [hy]))]

theorem resolvePath_step_plain (dst e : GoString) (h : e ≠ ".".toList ∧ e ≠ "..".toList) :
    resolvePath.step (dst, false) e = (dst ++ '/' :: e, false) := by
  have h1 : e ≠ ['.'] := h.1
  have h2 : e ≠ ['.', '.'] := h.2
  simp [resolvePath.step, h1, h2]

theorem resolvePath_fold : ∀ (es : List GoString) (dst : GoString),
    (∀ e ∈ es, e ≠ ".".toList ∧ e ≠ "..".toList) →
    es.foldl resolvePath.step (dst, false) = (dst ++ joinPath es, false) := by
  intro es
  induction es with
  | nil => intro dst _; simp [joinPath_nil]
  | cons e es ih =>
    intro dst h
    rw [List.foldl_cons, resolvePath_step_plain dst e (h e (by simp)),
      ih _ (fun x hx => h x (by simp [hx])), joinPath_cons]
    simp

/-- The normalising part of `resolvePath` leaves a path of plain segments as
it is. -/
theorem resolvePath_clean_plain (segs : List GoString) (hne : segs ≠ [])
    (h : ∀ s ∈ segs, plainSegment s = true) :
    resolvePath.clean (joinPath segs) = joinPath segs := by
  obtain ⟨s, rest, rfl⟩ : ∃ s rest, segs = s :: rest := by
    cases segs with
    | nil => exact absurd rfl hne
    | cons s rest => exact ⟨s, rest, rfl⟩
  have hseg := fun x hx => (plainSegment_iff x).1 (h x hx)
  have hslash : ∀ x ∈ s :: rest, '/' ∉ x := fun x hx => plain_no_slash (hseg x hx).2.1
  have hdots : ∀ e ∈ s :: rest, e ≠ ".".toList ∧ e ≠ "..".toList := fun x hx => (hseg x hx).2.2
  have hel := elems_joinPath s rest hslash
  have hfold : (elems (joinPath (s :: rest))).foldl resolvePath.step (['/'], true) =
      ('/' :: joinPath (s :: rest), false) := by
    rw [hel, List.foldl_cons]
    have h0 : resolvePath.step (['/'], true) [] = (['/'], false) := by decide
    rw [h0, resolvePath_fold _ _ hdots]
    rfl
  have hlast : (elems (joinPath (s :: rest))).getLast?.getD [] ∈ s :: rest := by
    rw [hel]
    have : ([] :: s :: rest).getLast? = (s :: rest).getLast? := by simp [List.getLast?_cons_cons]
    rw [this]
    cases hl : (s :: rest).getLast? with
    | none => simp at hl
    | some x => exact List.mem_of_getLast?_eq_some hl
  have hlast1 : (elems (joinPath (s :: rest))).getLast?.getD [] ≠ ['.'] := (hdots _ hlast).1
  have hlast2 : (elems (joinPath (s :: rest))).getLast?.getD [] ≠ ['.', '.'] := (hdots _ hlast).2
  have hj : joinPath (s :: rest) = '/' :: (s ++ joinPath rest) := joinPath_cons s rest
  have hne' : joinPath (s :: rest) ≠ [] := by rw [hj]; simp
  unfold resolvePath.clean
  rw [if_neg hne']
  have hfold' : (elems (joinPath (s :: rest))).foldl resolvePath.step ("/".toList, true) =
      ('/' :: joinPath (s :: rest), false) := hfold
  have hl : ¬ ((elems (joinPath (s :: rest))).getLast?.getD [] = ".".toList ∨
      (elems (joinPath (s :: rest))).getLast?.getD [] = "..".toList) := by
    rintro (h | h)
    · exact hlast1 h
    · exact hlast2 h
  simp only [hfold', if_neg hl]
  rw [hj]
  simp

theorem resolvePath_abs (base : GoString) (segs : List GoString) (hne : segs ≠ [])
    (h : ∀ s ∈ segs, plainSegment s = true) :
    resolvePath base (joinPath segs) = joinPath segs := by
  obtain ⟨s, rest, rfl⟩ : ∃ s rest, segs = s :: rest := by
    cases segs with
    | nil => exact absurd rfl hne
    | cons s rest => exact ⟨s, rest, rfl⟩
  have hfull : resolvePath.full base (joinPath (s :: rest)) = joinPath (s :: rest) := by
    rw [joinPath_cons]; simp [resolvePath.full]
  rw [resolvePath, hfull, resolvePath_clean_plain _ hne h]

theorem string_plain (scheme host p : GoString) (hscheme : scheme ≠ [])
    (hhost : host ≠ [] ∧ ∀ c ∈ host, plainByte c = true)
    (hp : ∀ c ∈ p, plainByte c = true ∨ c = '/') (hhead : ∃ t, p = '/' :: t) :
    URL.String { Scheme := scheme, Host := host, Path := p } =
      scheme ++ "://".toList ++ host ++ p := by
  have hesc : URL.EscapedPath { Scheme := scheme, Host := host, Path := p } = p :=
    escapedPath_plain _ hp rfl
  have hhostesc : escape .encodeHost host = host :=
    escape_id _ host fun c hc => plainByte_shouldEscape (hhost.2 c hc) _
  obtain ⟨t, rfl⟩ := hhead
  simp only [URL.String, hesc]
  simp [hscheme, hhost.1, hhostesc]

theorem resolveReference_plain (scheme host bpath href R : GoString)
    (hb : ∀ c ∈ bpath, plainByte c = true ∨ c = '/')
    (hh : ∀ c ∈ href, plainByte c = true ∨ c = '/') (hne : href ≠ [])
    (hR : resolvePath bpath href = R) (hRb : ∀ c ∈ R, plainByte c = true ∨ c = '/') :
    URL.ResolveReference { Scheme := scheme, Host := host, Path := bpath } { Path := href } =
      { Scheme := scheme, Host := host, Path := R } := by
  have he1 : URL.EscapedPath { Scheme := scheme, Host := host, Path := bpath } = bpath :=
    escapedPath_plain _ hb rfl
  have he2 : URL.EscapedPath { Path := href } = href := escapedPath_plain _ hh rfl
  simp only [URL.ResolveReference, he1, he2, hR]
  simp [hne, setPath_plain _ R hRb]

/-- `resolveURL` on a plain base and a plain path reference, in terms of
`resolvePath`. -/
theorem resolveURL_plain_aux (htmlParse : GoString → Option Node)
    (scheme host bpath href R : GoString)
    (hscheme : scheme ≠ [] ∧ ∀ c ∈ scheme, 'a' ≤ c ∧ c ≤ 'z')
    (hhost : host ≠ [] ∧ ∀ c ∈ host, plainByte c = true)
    (hb : ∀ c ∈ bpath, plainByte c = true ∨ c = '/')
    (hbhead : bpath = [] ∨ ∃ t, bpath = '/' :: t)
    (hh : ∀ c ∈ href, plainByte c = true ∨ c = '/') (hne : href ≠ [])
    (hnn : "//".toList.isPrefixOf href = false)
    (hR : resolvePath bpath href = R) (hRb : ∀ c ∈ R, plainByte c = true ∨ c = '/')
    (hRhead : ∃ t, R = '/' :: t) :
    resolveURL (goImports htmlParse) (scheme ++ "://".toList ++ host ++ bpath) href =
      scheme ++ "://".toList ++ host ++ R := by
  have h1 : (goImports htmlParse).urlParse (scheme ++ "://".toList ++ host ++ bpath) =
      some { Scheme := scheme, Host := host, Path := bpath } :=
    parse_base scheme host bpath hscheme hhost.2 hb hbhead
  have h2 : (goImports htmlParse).urlParse href = some { Path := href } := parse_path href hh hnn
  simp only [resolveURL, h1, h2]
  show URL.String (URL.ResolveReference _ _) = _
  rw [resolveReference_plain scheme host bpath href R hb hh hne hR hRb,
    string_plain scheme host R hscheme.1 hhost hRb hRhead]

end NetURL

/-! ## The embedding of `net/url` on the examples of RFC 3986, section 5.4 -/

set_option maxRecDepth 100000 in
/-- The embedding of `net/url` resolves the references of RFC 3986, section
5.4 (normal and abnormal examples), against `http://a/b/c/d;p?q` as the RFC
lists them. -/
theorem resolveReference_examples :
    (["g:h", "g", "./g", "g/", "/g", "//g", "?y", "g?y", "#s", "g#s", "g?y#s", ";x", "g;x",
        "", ".", "./", "..", "../", "../g", "../..", "../../", "../../g", "../../../g",
        "/./g", "/../g", "g.", ".g", "g..", "..g", "./../g", "./g/.", "g/./h", "g/../h",
        "g;x=1/../y", "g?y/../x", "g#s/../x"].map fun href =>
      String.mk (resolveURL (goImports fun _ => none) "http://a/b/c/d;p?q".toList href.toList)) =
    ["g:h", "http://a/b/c/g", "http://a/b/c/g", "http://a/b/c/g/", "http://a/g", "http://g",
      "http://a/b/c/d;p?y", "http://a/b/c/g?y", "http://a/b/c/d;p?q#s", "http://a/b/c/g#s",
      "http://a/b/c/g?y#s", "http://a/b/c/;x", "http://a/b/c/g;x", "http://a/b/c/d;p?q",
      "http://a/b/c/", "http://a/b/c/", "http://a/b/", "http://a/b/", "http://a/b/g",
      "http://a/", "http://a/", "http://a/g", "http://a/g", "http://a/g", "http://a/g",
      "http://a/b/c/g.", "http://a/b/c/.g", "http://a/b/c/g..", "http://a/b/c/..g",
      "http://a/b/g", "http://a/b/c/g/", "http://a/b/c/g/h", "http://a/b/c/h",
      "http://a/b/c/y", "http://a/b/c/g?y/../x", "http://a/b/c/g#s/../x"] := by
  decide

/-! ## C7: resolution of relative references -/

section Routing
open url

theorem resolveURL_absolute (htmlParse : GoString → Option Node)
    (scheme host bpath scheme2 host2 : GoString) (segs : List GoString)
    (hscheme : scheme ≠ [] ∧ ∀ c ∈ scheme, 'a' ≤ c ∧ c ≤ 'z')
    (hhost : ∀ c ∈ host, plainByte c = true)
    (hb : ∀ c ∈ bpath, plainByte c = true ∨ c = '/')
    (hbhead : bpath = [] ∨ ∃ t, bpath = '/' :: t)
    (hscheme2 : scheme2 ≠ [] ∧ ∀ c ∈ scheme2, 'a' ≤ c ∧ c ≤ 'z')
    (hhost2 : host2 ≠ [] ∧ ∀ c ∈ host2, plainByte c = true)
    (hne : segs ≠ []) (hsegs : ∀ s ∈ segs, plainSegment s = true) :
    resolveURL (goImports htmlParse) (scheme ++ "://".toList ++ host ++ bpath)
        (scheme2 ++ "://".toList ++ host2 ++ joinPath segs) =
      scheme2 ++ "://".toList ++ host2 ++ joinPath segs := by
  have hsb : ∀ x ∈ segs, ∀ c ∈ x, plainByte c = true :=
    fun x hx => ((plainSegment_iff x).1 (hsegs x hx)).2.1
  have hp := joinPath_bytes segs hsb
  have hhead : ∃ t, joinPath segs = '/' :: t := by
    cases segs with
    | nil => exact absurd rfl hne
    | cons s rest => exact ⟨_, joinPath_cons s rest⟩
  have h1 : (goImports htmlParse).urlParse (scheme ++ "://".toList ++ host ++ bpath) =
      some { Scheme := scheme, Host := host, Path := bpath } :=
    parse_base scheme host bpath hscheme hhost hb hbhead
  have h2 : (goImports htmlParse).urlParse (scheme2 ++ "://".toList ++ host2 ++ joinPath segs) =
      some { Scheme := scheme2, Host := host2, Path := joinPath segs } :=
    parse_base scheme2 host2 _ hscheme2 hhost2.2 hp (Or.inr hhead)
  have he : URL.EscapedPath { Scheme := scheme2, Host := host2, Path := joinPath segs } =
      joinPath segs := escapedPath_plain _ hp rfl
  have hfull : resolvePath.full (joinPath segs) [] = joinPath segs := by simp [resolvePath.full]
  have hres : URL.ResolveReference { Scheme := scheme, Host := host, Path := bpath }
      { Scheme := scheme2, Host := host2, Path := joinPath segs } =
      { Scheme := scheme2, Host := host2, Path := joinPath segs } := by
    simp only [URL.ResolveReference, he, resolvePath, hfull,
      resolvePath_clean_plain segs hne hsegs]
    simp [hscheme2.1, setPath_plain _ _ hp]
  simp only [resolveURL, h1, h2]
  show URL.String (URL.ResolveReference _ _) = _
  rw [hres, string_plain scheme2 host2 _ hscheme2.1 hhost2 hp hhead]

theorem resolveURL_root (htmlParse : GoString → Option Node) (domain : GoString)
    (hdom : domain ≠ [] ∧ ∀ c ∈ domain, plainByte c = true)
    (segs : List GoString) (hne : segs ≠ []) (hsegs : ∀ s ∈ segs, plainSegment s = true) :
    resolveURL (goImports htmlParse) ("https://".toList ++ domain) (joinPath segs) =
      "https://".toList ++ domain ++ joinPath segs := by
  obtain ⟨s, rest, rfl⟩ : ∃ s rest, segs = s :: rest := by
    cases segs with
    | nil => exact absurd rfl hne
    | cons s rest => exact ⟨s, rest, rfl⟩
  have hsb : ∀ x ∈ s :: rest, ∀ c ∈ x, plainByte c = true :=
    fun x hx => ((plainSegment_iff x).1 (hsegs x hx)).2.1
  have hh := joinPath_bytes (s :: rest) hsb
  obtain ⟨c, cs, hs⟩ : ∃ c cs, s = c :: cs := by
    cases s with
    | nil => exact absurd rfl ((plainSegment_iff []).1 (hsegs [] (by simp))).1
    | cons c cs => exact ⟨c, cs, rfl⟩
  have hc : c ≠ '/' := fun e => plain_no_slash (hsb s (by simp)) (by rw [hs, e]; simp)
  have hj : joinPath (s :: rest) = '/' :: (s ++ joinPath rest) := joinPath_cons s rest
  have := resolveURL_plain_aux htmlParse "https".toList domain [] (joinPath (s :: rest))
    (joinPath (s :: rest)) (by decide) hdom (by simp) (Or.inl rfl) hh (by rw [hj]; simp)
    (by
      rw [hj, hs, Bool.eq_false_iff]
      intro hp
      have := List.isPrefixOf_iff_prefix.1 hp
      simp [List.cons_prefix_cons] at this
      exact hc this.symm)
    (resolvePath_abs _ _ hne hsegs) hh ⟨_, hj⟩
  simpa using this

end Routing

set_option maxRecDepth 100000 in
/-- C3 (as amended). For a depth below `math.MaxInt64` (where Go's `depth+1`
does not wrap), `processLinks`, run by a goroutine that is not interrupted in
line 128, treats every resolved hyperlink `L` of the page, in document order,
in exactly one of three ways: a product URL is appended to the list of the
task's domain and not scheduled; any other link that contains the domain
string is scheduled once as `Crawl(L, domain, depth+1, maxDepth)` and not
appended; any other link is dropped.  The lists of other domains do not
change.  For the page whose only links are `/product/42`, `/about` and
`https://other.example/x`, crawled at `https://<domain>` for a domain that is
a plain host name (unreserved bytes only, no path or query), with `/about` not
itself a product URL of that domain and the cross-domain link not containing
the domain string, this gives exactly one product entry
(`https://<domain>/product/42`) and exactly one spawned task (for
`https://<domain>/about`, at `depth+1`). -/
theorem processLinks_routing (lib : Imports) (c : Crawler) (node : Node)
    (base domain : GoString) (depth maxDepth : Int)
    (hlo : -2 ^ 63 ≤ depth) (hhi : depth < 2 ^ 63 - 1) :
    productURLs (processLinks lib c node base domain depth maxDepth).1 domain =
        productURLs c domain ++
          ((hrefs node).map (resolveURL lib base)).filter (fun L => isProductURL c L) ∧
    (∀ d, d ≠ domain →
      (processLinks lib c node base domain depth maxDepth).1.ProductURLs d = c.ProductURLs d) ∧
    (processLinks lib c node base domain depth maxDepth).2 =
        (((hrefs node).map (resolveURL lib base)).filter
            (fun L => !isProductURL c L && Contains L domain)).map
          (fun L => ⟨L, domain, intAdd depth 1, maxDepth⟩) ∧
    intAdd depth 1 = depth + 1 ∧
    (∀ htmlParse : GoString → Option Node,
      domain ≠ [] → (∀ b ∈ domain, plainByte b = true) →
      isProductURL NewCrawler ("https://".toList ++ domain ++ "/about".toList) = false →
      Contains "https://other.example/x".toList domain = false →
      hrefs examplePage =
          ["/product/42".toList, "/about".toList, "https://other.example/x".toList] ∧
        (processLinks (goImports htmlParse) NewCrawler examplePage ("https://".toList ++ domain)
            domain depth maxDepth).1.ProductURLs domain =
          some ["https://".toList ++ domain ++ "/product/42".toList] ∧
        (processLinks (goImports htmlParse) NewCrawler examplePage ("https://".toList ++ domain)
            domain depth maxDepth).2 =
          [⟨"https://".toList ++ domain ++ "/about".toList, domain, depth + 1, maxDepth⟩]) := by
  have hclosed := processLinks_closed lib c node base domain depth maxDepth
  have hframe := appendProducts_frame domain
    (((hrefs node).map (resolveURL lib base)).filter fun L => isProductURL c L) c
  have hadd := intAdd_one_eq depth hlo hhi
  refine ⟨?_, ?_, ?_, hadd, ?_⟩
  · rw [hclosed]; exact hframe.1
  · intro d hd; rw [hclosed]; exact hframe.2.1 d hd
  · rw [hclosed, hadd]
  · intro htmlParse hne hbytes habout hcross
    have hhrefs : hrefs examplePage =
        ["/product/42".toList, "/about".toList, "https://other.example/x".toList] := by decide
    have hr1 : resolveURL (goImports htmlParse) ("https://".toList ++ domain)
        "/product/42".toList = "https://".toList ++ domain ++ "/product/42".toList :=
      resolveURL_root htmlParse domain ⟨hne, hbytes⟩ ["product".toList, "42".toList]
        (by decide) (by decide)
    have hr2 : resolveURL (goImports htmlParse) ("https://".toList ++ domain)
        "/about".toList = "https://".toList ++ domain ++ "/about".toList :=
      resolveURL_root htmlParse domain ⟨hne, hbytes⟩ ["about".toList] (by decide) (by decide)
    have hr3 : resolveURL (goImports htmlParse) ("https://".toList ++ domain)
        "https://other.example/x".toList = "https://other.example/x".toList := by
      have := resolveURL_absolute htmlParse "https".toList domain [] "https".toList
        "other.example".toList ["x".toList] (by decide) hbytes (by simp) (Or.inl rfl)
        (by decide) (by decide) (by decide) (by decide)
      simpa using this
    have hp1 : isProductURL NewCrawler ("https://".toList ++ domain ++ "/product/42".toList) =
        true := by
      refine (isProductURL_loop_iff _ _).2 ⟨lits "/product/".toList, ?_, ?_⟩
      · show lits "/product/".toList ∈ patterns
        rw [patterns_eq]; exact List.mem_cons_self _ _
      · exact (matchString_lits _ _).2 ⟨"https://".toList ++ domain, "42".toList, by simp⟩
    have hp3 : isProductURL NewCrawler "https://other.example/x".toList = false := by decide
    refine ⟨hhrefs, ?_, ?_⟩
    · rw [processLinks_closed, hhrefs]
      simp only [List.map_cons, List.map_nil, hr1, hr2, hr3, List.filter_cons, hp1, habout, hp3,
        if_true, Bool.false_eq_true, if_false, List.filter_nil, appendProducts_cons,
        appendProducts_nil]
      simp [appendProduct, indexWrite, indexRead, mapSet, productURLs, NewCrawler]
    · have hc2 : Contains ("https://".toList ++ domain ++ "/about".toList) domain = true :=
        (contains_iff _ _).2 ⟨"https://".toList, "/about".toList, rfl⟩
      rw [processLinks_closed, hhrefs]
      simp only [List.map_cons, List.map_nil, hr1, hr2, hr3, List.filter_cons, hp1, habout, hp3,
        hcross, hc2, Bool.not_true, Bool.not_false, Bool.false_and, Bool.true_and, if_true,
        Bool.false_eq_true, if_false, List.filter_nil, List.nil_append]

set_option maxRecDepth 100000 in
/-- C3, at the seed page `https://x.com` of the domain `x.com`, depth 0. -/
theorem processLinks_routing_witness :
    (processLinks (goImports fun _ => none) NewCrawler examplePage "https://x.com".toList
        "x.com".toList 0 5).1.ProductURLs "x.com".toList =
      some ["https://x.com/product/42".toList] ∧
    (processLinks (goImports fun _ => none) NewCrawler examplePage "https://x.com".toList
        "x.com".toList 0 5).2 = [⟨"https://x.com/about".toList, "x.com".toList, 1, 5⟩] :=
  ((processLinks_routing (goImports fun _ => none) NewCrawler examplePage
    "https://x.com".toList "x.com".toList 0 5 (by norm_num) (by norm_num)).2.2.2.2
    (fun _ => none) (by decide) (by decide) (by decide) (by decide)).2

set_option maxRecDepth 100000 in
/-- C3 as stated fails at a seed of `main` that carries a path,
`www.zara.com/in/en/kids-baby-shop-by-size-12-18-months-l7229.html`: on the
seed page `https://<domain>` with the three links, `/about` is not a product
URL and the cross-domain link does not contain the domain, but `/about`
resolves to `https://www.zara.com/about`, which does not contain the domain
string either, so that no task is spawned; the product entry is
`https://www.zara.com/product/42`. -/
theorem processLinks_seed_with_path :
    "www.zara.com/in/en/kids-baby-shop-by-size-12-18-months-l7229.html".toList ∈ domains ∧
    resolveURL (goImports fun _ => none)
        ("https://".toList ++
          "www.zara.com/in/en/kids-baby-shop-by-size-12-18-months-l7229.html".toList)
        "/about".toList = "https://www.zara.com/about".toList ∧
    isProductURL NewCrawler "https://www.zara.com/about".toList = false ∧
    Contains "https://other.example/x".toList
        "www.zara.com/in/en/kids-baby-shop-by-size-12-18-months-l7229.html".toList = false ∧
    (processLinks (goImports fun _ => none) NewCrawler examplePage
        ("https://".toList ++
          "www.zara.com/in/en/kids-baby-shop-by-size-12-18-months-l7229.html".toList)
        "www.zara.com/in/en/kids-baby-shop-by-size-12-18-months-l7229.html".toList 0 100).2 =
      [] ∧
    (processLinks (goImports fun _ => none) NewCrawler examplePage
        ("https://".toList ++
          "www.zara.com/in/en/kids-baby-shop-by-size-12-18-months-l7229.html".toList)
        "www.zara.com/in/en/kids-baby-shop-by-size-12-18-months-l7229.html".toList
        0 100).1.ProductURLs
        "www.zara.com/in/en/kids-baby-shop-by-size-12-18-months-l7229.html".toList =
      some ["https://www.zara.com/product/42".toList] := by
  decide

/-! ## C8: unparsable links -/

theorem isProductURL_nil (c : Crawler) (h : c.Patterns = NewCrawler.Patterns) :
    isProductURL c [] = false := by
  have : isProductURL c [] = isProductURL NewCrawler [] := by
    simp only [isProductURL, h]
  rw [this]; decide

theorem contains_nil (domain : GoString) (h : domain ≠ []) : Contains [] domain = false := by
  cases domain with
  | nil => exact absurd rfl h
  | cons c s => rfl

theorem processLinks_link_patterns (lib : Imports) (base domain : GoString)
    (depth maxDepth : Int) (link : GoString) (st : LinkState) :
    (processLinks.link lib base domain depth maxDepth link st).1.Patterns = st.1.Patterns := by
  unfold processLinks.link
  dsimp only
  split
  · rfl
  · split <;> rfl

theorem resolveURL_unparsable (lib : Imports) (base href : GoString)
    (h : lib.urlParse base = none ∨ lib.urlParse href = none) : resolveURL lib base href = [] := by
  unfold resolveURL
  rcases h with h | h
  · rw [h]
  · rw [h]; split <;> rfl

theorem processLinks_link_unparsable (lib : Imports) (base domain : GoString)
    (depth maxDepth : Int) (hdom : domain ≠ []) (href : GoString)
    (h : lib.urlParse base = none ∨ lib.urlParse href = none) (st : LinkState)
    (hpat : st.1.Patterns = NewCrawler.Patterns) :
    processLinks.link lib base domain depth maxDepth href st = st := by
  simp [processLinks.link, resolveURL_unparsable lib base href h, isProductURL_nil st.1 hpat,
    contains_nil domain hdom]

theorem route_parsable (lib : Imports) (base domain : GoString) (depth maxDepth : Int)
    (hdom : domain ≠ []) : ∀ (links : List GoString) (st : LinkState),
    st.1.Patterns = NewCrawler.Patterns →
    route lib base domain depth maxDepth links st =
      route lib base domain depth maxDepth
        (links.filter fun href => (lib.urlParse base).isSome && (lib.urlParse href).isSome) st := by
  intro links
  induction links with
  | nil => intro st _; rfl
  | cons l ls ih =>
    intro st hpat
    by_cases hok : ((lib.urlParse base).isSome && (lib.urlParse l).isSome) = true
    · have hf : List.filter
          (fun href => (lib.urlParse base).isSome && (lib.urlParse href).isSome) (l :: ls) =
          l :: List.filter
            (fun href => (lib.urlParse base).isSome && (lib.urlParse href).isSome) ls :=
        List.filter_cons_of_pos hok
      rw [hf, route_cons, route_cons]
      exact ih _ ((processLinks_link_patterns lib base domain depth maxDepth l st).trans hpat)
    · have hf : List.filter
          (fun href => (lib.urlParse base).isSome && (lib.urlParse href).isSome) (l :: ls) =
          List.filter
            (fun href => (lib.urlParse base).isSome && (lib.urlParse href).isSome) ls :=
        List.filter_cons_of_neg hok
      rw [hf, route_cons]
      have hbad : lib.urlParse base = none ∨ lib.urlParse l = none := by
        simp only [Bool.and_eq_true, not_and_or, Option.not_isSome_iff_eq_none] at hok
        exact hok
      rw [processLinks_link_unparsable lib base domain depth maxDepth hdom l hbad st hpat]
      exact ih st hpat

/-- C8 (as amended). On a crawler with the patterns of `NewCrawler` and for a
domain string that is not empty: when the base or the href of a link fails to
parse, `resolveURL` returns the empty string and `processLinks` does nothing
for that link (nothing appended, nothing scheduled, no error); the page is
processed as if it held only its parsable links. -/
theorem processLinks_drops_unparsable (lib : Imports) (c : Crawler) (base domain : GoString)
    (depth maxDepth : Int) (hpat : c.Patterns = NewCrawler.Patterns) (hdom : domain ≠ []) :
    (∀ href : GoString, lib.urlParse base = none ∨ lib.urlParse href = none →
      resolveURL lib base href = [] ∧
      ∀ st : LinkState, st.1.Patterns = c.Patterns →
        processLinks.link lib base domain depth maxDepth href st = st) ∧
    (∀ node : Node,
      processLinks lib c node base domain depth maxDepth =
        route lib base domain depth maxDepth
          ((hrefs node).filter fun href =>
            (lib.urlParse base).isSome && (lib.urlParse href).isSome) (c, [])) := by
  constructor
  · intro href h
    exact ⟨resolveURL_unparsable lib base href h, fun st hst =>
      processLinks_link_unparsable lib base domain depth maxDepth hdom href h st (hst.trans hpat)⟩
  · intro node
    rw [processLinks_eq_route]
    exact route_parsable lib base domain depth maxDepth hdom (hrefs node) (c, []) hpat

set_option maxRecDepth 100000 in
/-- C8, on a page whose first link is `:` (rejected by `url.Parse`) and whose
second link is `/about`, for the domain `x.com`: the first link leaves no
trace and the second is processed. -/
theorem processLinks_drops_unparsable_witness :
    url.Parse ":".toList = none ∧
    resolveURL (goImports fun _ => none) "https://x.com".toList ":".toList = [] ∧
    (processLinks (goImports fun _ => none) NewCrawler badLinkPage "https://x.com".toList
        "x.com".toList 0 5).2 = [⟨"https://x.com/about".toList, "x.com".toList, 1, 5⟩] ∧
    (processLinks (goImports fun _ => none) NewCrawler badLinkPage "https://x.com".toList
        "x.com".toList 0 5).1.ProductURLs "x.com".toList = none :=
  ⟨by decide,
    ((processLinks_drops_unparsable (goImports fun _ => none) NewCrawler "https://x.com".toList
      "x.com".toList 0 5 rfl (by decide)).1 ":".toList
      (Or.inr (show url.Parse ":".toList = none by decide))).1,
    by decide, by decide⟩

set_option maxRecDepth 100000 in
/-- C8 as stated fails for the empty domain string: the link `:` does not
parse, `resolveURL` returns the empty string, the empty string contains the
empty domain, and `processLinks` schedules `Crawl("", "", depth+1, maxDepth)`
for it. -/
theorem processLinks_empty_domain :
    url.Parse ":".toList = none ∧
    (processLinks (goImports fun _ => none) NewCrawler badLinkPage "https://x.com".toList
        [] 0 5).2 = [⟨[], [], 1, 5⟩, ⟨"https://x.com/about".toList, [], 1, 5⟩] := by
  decide

/-! ## C9: `main` and the goroutines spawned by `processLinks` -/

set_option maxRecDepth 100000 in
/-- C9 fails on the code. When the page at `https://snitch.co.in` holds the
link `/about`, the schedule in which the eight goroutines of `main` run to
completion and `main` then passes `wg.Wait()` is an execution of `main`:
`SaveResults` is called with the counter at zero while the spawned task
`Crawl("https://snitch.co.in/about", "snitch.co.in", 1, 100)` is still
pending. -/
theorem main_saves_with_pending_task :
    (main.run (goImports fun _ => some aboutPage) main.start earlySave).map
        (fun s => (s.wg, s.saved.isSome, s.pending)) =
      some (0, true,
        [(⟨"https://snitch.co.in/about".toList, "snitch.co.in".toList, 1, 100⟩, false)]) := by
  decide

/-! ## C4 at a concrete input -/

set_option maxRecDepth 100000 in
/-- C4, on a run with `maxDepth = 0` from the seed `https://x.com` whose page
links to `/about`: the seed is fetched at depth 0, the spawned task of depth 1
is executed without any effect. -/
theorem crawl_depth_bound_witness :
    (RunState.run (goImports fun _ => some aboutPage)
        (RunState.start NewCrawler [("https://x.com".toList, "x.com".toList)] 0)
        [⟨0, alwaysStatus200⟩, ⟨0, alwaysStatus200⟩]).trace =
      [(⟨"https://x.com".toList, "x.com".toList, 0, 0⟩, [.request "https://x.com".toList]),
        (⟨"https://x.com/about".toList, "x.com".toList, 1, 0⟩, [])] ∧
    ∀ p ∈ (RunState.run (goImports fun _ => some aboutPage)
        (RunState.start NewCrawler [("https://x.com".toList, "x.com".toList)] 0)
        [⟨0, alwaysStatus200⟩, ⟨0, alwaysStatus200⟩]).trace,
      (p.1.depth > 0 → p.2 = []) ∧
      ((∃ u, Effect.request u ∈ p.2) → 0 ≤ p.1.depth ∧ p.1.depth ≤ 0) :=
  ⟨by decide,
    (crawl_depth_bound (goImports fun _ => some aboutPage) 0).2 NewCrawler
      [("https://x.com".toList, "x.com".toList)] [⟨0, alwaysStatus200⟩, ⟨0, alwaysStatus200⟩]⟩

/-! ## C1 at a concrete input -/

set_option maxRecDepth 100000 in
/-- C1, for two invocations on the same URL on a fresh crawler: the first one
makes the requests, the second one has no effect. -/
theorem crawl_dedup_witness :
    (∃ (k : Nat) (t : Task) (net : Network) (eff : List Effect),
      [((⟨"https://x.com".toList, "x.com".toList, 0, 5⟩ : Task), alwaysStatus500),
        (⟨"https://x.com".toList, "x.com".toList, 1, 5⟩, alwaysStatus500)][k]? = some (t, net) ∧
      t.urlStr = "https://x.com".toList ∧
      (crawlAll (goImports fun _ => none) NewCrawler
        [(⟨"https://x.com".toList, "x.com".toList, 0, 5⟩, alwaysStatus500),
          (⟨"https://x.com".toList, "x.com".toList, 1, 5⟩, alwaysStatus500)])[k]? = some eff ∧
      Effect.request "https://x.com".toList ∈ eff) ∧
    crawlAll (goImports fun _ => none) NewCrawler
        [(⟨"https://x.com".toList, "x.com".toList, 0, 5⟩, alwaysStatus500),
          (⟨"https://x.com".toList, "x.com".toList, 1, 5⟩, alwaysStatus500)] =
      [[.request "https://x.com".toList, .sleep 2, .request "https://x.com".toList, .sleep 2,
        .request "https://x.com".toList, .sleep 2], []] := by
  refine ⟨?_, by decide⟩
  obtain ⟨k, t, net, eff, h1, h2, _, h4, h5, _⟩ :=
    crawl_dedup (goImports fun _ => none) "https://x.com".toList
      [(⟨"https://x.com".toList, "x.com".toList, 0, 5⟩, alwaysStatus500),
        (⟨"https://x.com".toList, "x.com".toList, 1, 5⟩, alwaysStatus500)] NewCrawler
      (by
        intro inv hinv
        simp only [List.mem_cons, List.mem_singleton, List.not_mem_nil, or_false] at hinv
        rcases hinv with rfl | rfl <;> decide)
      (by decide) ⟨_, List.mem_cons_self _ _, rfl⟩
  exact ⟨k, t, net, eff, h1, h2, h4, h5⟩

end EcommerceCrawler
